import Mathlib

/-!
Verification development for the VizuMarker semantic annotation core.

Shallow embedding of the two detection engines of the repository:
the sem_core module (ld35_service/engine/sem_core.py) and the relevant
fragment of the LD35Model class (ld35_service/core/ld35_engine.py).

Python ints are modelled as Int (Nat where the source value is an
offset produced by the regex engine), Python floats as rationals,
Python dicts with string keys as association lists built with an
upsert operation that mirrors dict assignment, and compiled regular
expressions as oracles: a structure holding the list of finditer
spans and the fullmatch test, together with the bound that the regex
engine only reports spans inside the text.

The Batteries rational arithmetic is irreducible by default, which
only affects elaborator-side evaluation; it is re-marked
semireducible so that concrete runs of the embedded pipeline
evaluate under the decide tactic. -/

attribute [local semireducible] Rat.mul Rat.add Rat.sub Rat.inv Rat.ofScientific

/-! ## Safe activation-expression evaluator (sem_core._eval / eval_activation)

Values flowing through the evaluator are Python ints, floats and bools.
Ints and floats are collapsed into one rational constructor; a bool
compares as 0 or 1 exactly as in Python. -/

inductive Value where
  | q (x : ℚ)
  | b (x : Bool)
deriving DecidableEq

def Value.toQ : Value → ℚ
  | .q x => x
  | .b x => if x then 1 else 0

/-- Python truthiness of a numeric or boolean value. -/
def truthy (v : Value) : Bool := decide (v.toQ ≠ 0)

inductive CmpOp where
  | ceq | cne | clt | cle | cgt | cge
deriving DecidableEq

def applyCmp (op : CmpOp) (l r : Value) : Bool :=
  match op with
  | .ceq => decide (l.toQ = r.toQ)
  | .cne => decide (l.toQ ≠ r.toQ)
  | .clt => decide (l.toQ < r.toQ)
  | .cle => decide (l.toQ ≤ r.toQ)
  | .cgt => decide (r.toQ < l.toQ)
  | .cge => decide (r.toQ ≤ l.toQ)

/-- AST of the activation mini-language accepted by sem_core._eval:
literals, names, not, and/or, comparisons.  Chained comparisons
(a < b <= c) are represented by their conjunction, which is the chain
semantics the evaluator implements. -/
inductive Expr where
  | num (x : ℚ)
  | boolc (x : Bool)
  | name (s : String)
  | notE (e : Expr)
  | andE (l r : Expr)
  | orE (l r : Expr)
  | cmp (l : Expr) (op : CmpOp) (r : Expr)
deriving DecidableEq

/-- sem_core._eval: total evaluation; an unknown name resolves to 0
(env.get(node.id, 0)). -/
def evalE (env : List (String × Value)) : Expr → Value
  | .num x => .q x
  | .boolc x => .b x
  | .name s => (env.lookup s).getD (.q 0)
  | .notE e => .b (!(truthy (evalE env e)))
  | .andE l r => .b (truthy (evalE env l) && truthy (evalE env r))
  | .orE l r => .b (truthy (evalE env l) || truthy (evalE env r))
  | .cmp l op r => .b (applyCmp op (evalE env l) (evalE env r))

/-- sem_core.eval_activation: an absent or empty expression is true,
otherwise the truthiness of the evaluated expression. -/
def evalActivation (e : Option Expr) (env : List (String × Value)) : Bool :=
  match e with
  | none => true
  | some ex => truthy (evalE env ex)

/-- Semantics of the Python builtin eval as used by
LD35Model._evaluate_expression on the same expression grammar: an
unbound name raises NameError (modelled as error), and/or return their
operands and short-circuit, comparisons evaluate both sides. -/
def evalPy (env : List (String × Value)) : Expr → Except Unit Value
  | .num x => .ok (.q x)
  | .boolc x => .ok (.b x)
  | .name s =>
    match env.lookup s with
    | some v => .ok v
    | none => .error ()
  | .notE e =>
    match evalPy env e with
    | .ok v => .ok (.b (!(truthy v)))
    | .error u => .error u
  | .andE l r =>
    match evalPy env l with
    | .ok lv => if truthy lv then evalPy env r else .ok lv
    | .error u => .error u
  | .orE l r =>
    match evalPy env l with
    | .ok lv => if truthy lv then .ok lv else evalPy env r
    | .error u => .error u
  | .cmp l op r =>
    match evalPy env l with
    | .ok lv =>
      match evalPy env r with
      | .ok rv => .ok (.b (applyCmp op lv rv))
      | .error u => .error u
    | .error u => .error u

/-- LD35Model._evaluate_expression: a missing expression is true, an
evaluation error makes the whole expression false, otherwise the
truthiness of the result. -/
def ldEval (e : Option Expr) (env : List (String × Value)) : Bool :=
  match e with
  | none => true
  | some ex =>
    match evalPy env ex with
    | .ok v => truthy v
    | .error _ => false

/-- The expression x < 1 from the claim about unknown-name resolution. -/
def exprXlt1 : Expr := .cmp (.name "x") .clt (.num 1)

/-! ## Annotations and the compiled-pattern oracle -/

/-- A sem_core annotation dict: marker_id, family, start, end, score.
Offsets are Python ints. -/
structure Ann where
  start : Int
  end_ : Int
  marker_id : String
  family : String
  score : ℚ
deriving DecidableEq

/-- A compiled regular expression, abstracted to its observable
behaviour: the list of spans finditer yields on a text and the
fullmatch test, with the bound that the regex engine reports spans
ending inside the text. -/
structure Pattern where
  finditer : List Char → List (Nat × Nat)
  fullmatchb : List Char → Bool
  finditer_le : ∀ t p, p ∈ finditer t → p.2 ≤ t.length

/-- Python text snippet t from s to e, i.e. text with s characters
dropped and then e minus s taken (clamping included). -/
def sliceL (t : List Char) (s e : Nat) : List Char :=
  (t.drop s).take (e - s)

/-- marker_id.split with limit 1 at the underscore, first component,
uppercased. -/
def familyOf (mid : String) : String :=
  String.mk ((mid.toList.takeWhile (fun c => c ≠ '_')).map Char.toUpper)

/-- sem_core.should_demote_match: a hit is demoted when some demote
pattern fullmatches the hit text, or some demote match anywhere in the
text overlaps the hit. -/
def shouldDemote (t : List Char) (s e : Nat) (dems : List Pattern) : Bool :=
  if dems.isEmpty then false
  else
    dems.any (fun p => p.fullmatchb (sliceL t s e)) ||
    dems.any (fun p => (p.finditer t).any (fun m => !(decide (m.2 ≤ s) || decide (m.1 ≥ e))))

/-- The annotation dict detect_atomics appends for a surviving match:
score is the literal 1.0 of the source. -/
def mkAtomic (mid : String) (s e : Nat) : Ann :=
  { start := (s : Int), end_ := (e : Int), marker_id := mid, family := familyOf mid, score := 1 }

/-- Comparison key of resolve_overlaps and detect_atomics sorting:
start ascending, then span length descending. -/
def annLe (a b : Ann) : Prop :=
  a.start < b.start ∨ (a.start = b.start ∧ b.end_ - b.start ≤ a.end_ - a.start)

instance : DecidableRel annLe := fun a b => by
  unfold annLe; infer_instance

instance : IsTotal Ann annLe where
  total a b := by
    unfold annLe
    rcases lt_trichotomy a.start b.start with h | h | h
    · exact Or.inl (Or.inl h)
    · rcases le_total (b.end_ - b.start) (a.end_ - a.start) with h2 | h2
      · exact Or.inl (Or.inr ⟨h, h2⟩)
      · exact Or.inr (Or.inr ⟨h.symm, by omega⟩)
    · exact Or.inr (Or.inl h)

instance : IsTrans Ann annLe where
  trans a b c hab hbc := by
    unfold annLe at *
    rcases hab with h1 | ⟨h1, h2⟩ <;> rcases hbc with h3 | ⟨h3, h4⟩
    · exact Or.inl (h1.trans h3)
    · exact Or.inl (h3 ▸ h1)
    · exact Or.inl (h1 ▸ h3)
    · exact Or.inr ⟨h1.trans h3, h4.trans h2⟩

/-- Ordering key of detect_atomics: (start asc, end desc); sorting a
list of atomic hits with it matches the Python key (start, -end). -/
def atomicLe (a b : Ann) : Prop :=
  a.start < b.start ∨ (a.start = b.start ∧ b.end_ ≤ a.end_)

instance : DecidableRel atomicLe := fun a b => by
  unfold atomicLe; infer_instance

instance : IsTotal Ann atomicLe where
  total a b := by
    unfold atomicLe
    rcases lt_trichotomy a.start b.start with h | h | h
    · exact Or.inl (Or.inl h)
    · rcases le_total b.end_ a.end_ with h2 | h2
      · exact Or.inl (Or.inr ⟨h, h2⟩)
      · exact Or.inr (Or.inr ⟨h.symm, h2⟩)
    · exact Or.inr (Or.inl h)

instance : IsTrans Ann atomicLe where
  trans a b c hab hbc := by
    unfold atomicLe at *
    rcases hab with h1 | ⟨h1, h2⟩ <;> rcases hbc with h3 | ⟨h3, h4⟩
    · exact Or.inl (h1.trans h3)
    · exact Or.inl (h3 ▸ h1)
    · exact Or.inl (h1 ▸ h3)
    · exact Or.inr ⟨h1.trans h3, h4.trans h2⟩

/-- sem_core.detect_atomics over a compiled index (a dict id to
(detects, demotes), modelled as an association list): every detect
match of every marker, zero-width matches skipped, demoted matches
dropped, sorted by (start asc, end desc); every emitted hit carries
score 1.0. -/
def detectAtomics (t : List Char) (rx : List (String × List Pattern × List Pattern)) : List Ann :=
  List.insertionSort atomicLe
    (rx.flatMap (fun entry =>
      entry.2.1.flatMap (fun p =>
        (p.finditer t).filterMap (fun m =>
          if m.2 ≤ m.1 then none
          else if shouldDemote t m.1 m.2 entry.2.2 then none
          else some (mkAtomic entry.1 m.1 m.2)))))

/-! ## Sentence segmentation (sem_core.sentence_boundaries)

The while loop is translated with a fuel argument that strictly
exceeds the number of iterations (the scan position increases by at
least one per iteration and the loop stops at the text length, so fuel
length + 1 is never exhausted); the fuel-zero case finalises exactly
like the loop exit. -/

def isEnder (c : Char) : Bool := c == '.' || c == '!' || c == '?' || c == '…'

/-- The characters of the raw Python string of closing quotes and
brackets skipped after a sentence ender. -/
def isClosing (c : Char) : Bool :=
  c == '"' || c == '»' || c == '\\' || c == '\'' || c == ')' || c == ']' || c == '}'

/-- Python str.isspace for the ASCII range. -/
def isSpaceP (c : Char) : Bool :=
  c == ' ' || c == '\t' || c == '\n' || c == '\r' || c == '\x0b' || c == '\x0c'

/-- The inner while loop skipping closing quotes and brackets after an
ender. -/
def skipClosing (t : List Char) (N : Nat) : Nat → Nat → Nat
  | 0, j => j
  | f + 1, j =>
    if j < N then
      if isClosing (t.getD j ' ') then skipClosing t N f (j + 1) else j
    else j

/-- Main scanning loop of sentence_boundaries; start is the opening
offset of the sentence under construction, i the scan position, acc
the spans produced so far. -/
def sbLoop (t : List Char) (N : Nat) : Nat → Nat → Nat → List (Nat × Nat) → List (Nat × Nat)
  | 0, start, _, acc => acc ++ (if start < N then [(start, N)] else [])
  | f + 1, start, i, acc =>
    if i < N then
      let ch := t.getD i ' '
      if isEnder ch then
        let j := skipClosing t N (N + 1) (i + 1)
        if N ≤ j || isSpaceP (t.getD j ' ') then
          sbLoop t N f j j (acc ++ [(start, j)])
        else
          sbLoop t N f start (i + 1) acc
      else if ch == '\n' && (decide (i + 1 < N) && (t.getD (i + 1) ' ' == '\n' || t.getD (i + 1) ' ' == '\r')) then
        sbLoop t N f (i + 1) (i + 1) (acc ++ [(start, i)])
      else
        sbLoop t N f start (i + 1) acc
    else acc ++ (if start < N then [(start, N)] else [])

/-- sem_core.sentence_boundaries. -/
def sentenceBoundaries (t : List Char) : List (Nat × Nat) :=
  sbLoop t t.length (t.length + 1) 0 0 []

/-- chainEnds s l e: the spans of l abut consecutively, the first
starting at s, the last ending at e (s = e for the empty list). -/
def chainEnds : Nat → List (Nat × Nat) → Nat → Bool
  | s, [], e => s == e
  | s, (a, b) :: rest, e => a == s && chainEnds b rest e

/-- A text free of the double-newline hard break: no newline directly
followed by a newline or carriage return. -/
def noDbl (t : List Char) : Bool :=
  !((List.range t.length).any (fun i =>
    t.getD i ' ' == '\n' && (decide (i + 1 < t.length) &&
      (t.getD (i + 1) ' ' == '\n' || t.getD (i + 1) ' ' == '\r'))))

/-- Concrete detect-pattern oracle used in witnesses: one match (0,2)
on any text of length at least two. -/
def patAB : Pattern where
  finditer := fun t => if 2 ≤ t.length then [(0, 2)] else []
  fullmatchb := fun _ => false
  finditer_le := by
    intro t p hp
    dsimp only at hp
    split at hp
    · next h =>
      simp only [List.mem_singleton] at hp
      subst hp
      simpa using h
    · simp at hp

/-- Concrete demote-pattern oracle used in witnesses: no finditer
matches, fullmatch only on the one-character text z. -/
def patDemoteZ : Pattern where
  finditer := fun _ => []
  fullmatchb := fun s => s == ['z']
  finditer_le := by intro t p hp; dsimp only at hp; simp at hp

/-- A one-marker compiled index with a demote pattern that never
fires. -/
def rxSmall : List (String × List Pattern × List Pattern) :=
  [("ATO_X", [patAB], [patDemoteZ])]

/-- The numeric fields of a marker scoring dict read by
LD35Model._get_marker_score. -/
structure ScoringSrc where
  weight : Option ℚ := none
  base : Option ℚ := none
  score : Option ℚ := none

/-- Score candidates of LD35Model._get_marker_score: the numeric
scoring fields weight, base, score in order, then the explicit
top-level score field. -/
def scoreCandidates (scoring : Option ScoringSrc) (explicit : Option ℚ) : List ℚ :=
  (match scoring with
   | some sc => [sc.weight, sc.base, sc.score].filterMap id
   | none => []) ++
  (match explicit with
   | some e => [e]
   | none => [])

/-- LD35Model._get_marker_score: 0.7 when no candidate exists,
otherwise the maximum candidate, halved and capped at 1 when above 1,
floored at 0.3. -/
def getMarkerScore (scoring : Option ScoringSrc) (explicit : Option ℚ) : ℚ :=
  match scoreCandidates scoring explicit with
  | [] => 7 / 10
  | c :: cs =>
    let s := cs.foldl max c
    let s2 := if 1 < s then min 1 (s / 2) else s
    max (3 / 10) s2

/-! ## Overlap resolution (sem_core.resolve_overlaps) -/

/-- The weights bundle file: the two composed entries the engines
read. -/
structure Weights where
  minChildren : Option Int := none
  minScore : Option ℚ := none

/-- FAMILY_ORDER lookup with default 9. -/
def famRank (f : String) : Nat :=
  if f = "SEM" then 0
  else if f = "CLU" then 1
  else if f = "ATO" then 2
  else if f = "MEMA" then 3
  else if f = "DEESC" then 4
  else 9

/-- The overlap test of resolve_overlaps. -/
def overlapb (c k : Ann) : Bool :=
  !(decide (c.end_ ≤ k.start) || decide (c.start ≥ k.end_))

/-- The priority comparison of resolve_overlaps: family rank, then
score, then length; no further tie-break exists in the source. -/
def beats (c k : Ann) : Bool :=
  decide (famRank c.family < famRank k.family) ||
  (decide (famRank c.family = famRank k.family) && decide (k.score < c.score)) ||
  (decide (famRank c.family = famRank k.family) && decide (c.score = k.score) &&
    decide (k.end_ - k.start < c.end_ - c.start))

/-- Inner loop of resolve_overlaps: scan the kept list for the first
overlap with the candidate; on a hit, replace the kept item when the
candidate wins, else keep the list unchanged (the candidate is
dropped); none signals no overlap. -/
def insertAnn (c : Ann) : List Ann → Option (List Ann)
  | [] => none
  | k :: ks =>
    if overlapb c k then
      some (if beats c k then c :: ks else k :: ks)
    else
      match insertAnn c ks with
      | some ks2 => some (k :: ks2)
      | none => none

/-- One iteration of the outer loop of resolve_overlaps. -/
def resolveStep (kept : List Ann) (c : Ann) : List Ann :=
  match insertAnn c kept with
  | some kept2 => kept2
  | none => kept ++ [c]

/-- sem_core.resolve_overlaps: sort by (start asc, length desc) with a
stable sort as in Python, then fold the candidates into the kept list.
The weights argument is received and ignored exactly as in the
source. -/
def resolveOverlaps (anns : List Ann) (weights : Weights) : List Ann :=
  (List.insertionSort annLe anns).foldl resolveStep []

/-- The non-overlap relation of the specification. -/
def NonOverlap (a b : Ann) : Prop := a.end_ ≤ b.start ∨ b.end_ ≤ a.start

/-! ## Span policies and the composer (sem_core) -/

/-- First index from a given offset satisfying a predicate: the
Python for-loop with break used to find a containing sentence. -/
def findIdxFrom (p : α → Bool) : List α → Nat → Option Nat
  | [], _ => none
  | x :: xs, i => if p x then some i else findIdxFrom p xs (i + 1)

/-- Fold of the Python for-loop that keeps overwriting an index
variable whenever the predicate holds: the result is the last matching
index, or the default. -/
def lastIdxFrom (p : α → Bool) : List α → Nat → Nat → Nat
  | [], _, acc => acc
  | x :: xs, i, acc => lastIdxFrom p xs (i + 1) (if p x then i else acc)

def lastIdxWith (p : α → Bool) (l : List α) (d : Nat) : Nat := lastIdxFrom p l 0 d

/-- A span_policy dict: the keys the engines read. -/
structure SpanPolicy where
  mode : Option String := none
  maxSentenceSpan : Option Int := none
  fallback : Option String := none
  windowTokens : Option (Int × Int) := none

/-- Expansion loop of sem_core.sentence_union; the fuel is the
initial value of need, which decreases by one every iteration. -/
def suGo (Nn : Nat) : Nat → Nat → Nat → Nat → Nat × Nat
  | 0, iL, iR, _ => (iL, iR)
  | f + 1, iL, iR, step =>
    if decide (0 < iL) || decide (iR < Nn - 1) then
      if step % 2 == 0 && decide (iR < Nn - 1) then suGo Nn f iL (iR + 1) (step + 1)
      else if 0 < iL then suGo Nn f (iL - 1) iR (step + 1)
      else suGo Nn f iL iR (step + 1)
    else (iL, iR)

/-- sem_core.sentence_union: expand the sentence range to max(1,
max_sent) sentences, alternating right and left, then return the
bounds of the covered range. -/
def sentenceUnion (sentences : List (Nat × Nat)) (iL iR : Nat) (maxSent : Int) : Nat × Nat :=
  let need : Int := max 1 maxSent - ((iR : Int) - (iL : Int) + 1)
  let r := suGo sentences.length need.toNat iL iR 0
  ((sentences.getD r.1 (0, 0)).1, (sentences.getD r.2 (0, 0)).2)

/-- Python text.rfind(c, 0, hi): largest index below hi holding c,
else -1. -/
def rfindIn (t : List Char) (c : Char) (hi : Nat) : Int :=
  (List.range (min hi t.length)).foldl
    (fun acc i => if t.getD i ' ' == c then (i : Int) else acc) (-1)

/-- Python text.find(c, lo): smallest index at or after lo holding c,
else -1. -/
def findFrom (t : List Char) (c : Char) (lo : Nat) : Int :=
  match findIdxFrom (fun x => x == c) (t.drop lo) 0 with
  | some j => ((lo + j : Nat) : Int)
  | none => -1

/-- Python min over a list of candidate bounds, with a default for the
empty list. -/
def pyMinList (dflt : Nat) (l : List Int) : Nat :=
  match l with
  | [] => dflt
  | x :: xs => (xs.foldl min x).toNat

/-- sem_core.clause_union: expand to the nearest comma or semicolon on
each side, clamped to the text. -/
def clauseUnion (t : List Char) (start end_ : Nat) : Nat × Nat :=
  let lb := max (rfindIn t ',' start) (rfindIn t ';' start)
  let s1 : Nat := if 0 ≤ lb then (lb + 1).toNat else start
  let rc := findFrom t ',' end_
  let rs := findFrom t ';' end_
  let rbs := (if rc ≠ -1 then [rc] else []) ++ (if rs ≠ -1 then [rs] else [])
  let e1 : Nat := pyMinList end_ rbs
  (max 0 s1, min t.length e1)

/-- sem_core.apply_span_policy.  The anchor_window fallback uses the
4-characters-per-token approximation of the source, so the result can
leave the text bounds for window values of the wrong sign; results are
Python ints. -/
def applySpanPolicy (pol : SpanPolicy) (t : List Char) (sentences : List (Nat × Nat))
    (start end_ : Nat) : Int × Int :=
  let mode := pol.mode.getD "anchor_window"
  if mode = "sentence_union" then
    let mid := (start + end_) / 2
    match findIdxFrom (fun se => decide (se.1 ≤ mid) && decide (mid < se.2)) sentences 0 with
    | none => ((start : Int), (end_ : Int))
    | some sentIdx =>
      let iL := lastIdxWith (fun se => decide (se.1 ≤ start) && decide (start < se.2)) sentences sentIdx
      let iR := lastIdxWith (fun se => decide (se.1 < end_) && decide (end_ ≤ se.2)) sentences sentIdx
      let r := sentenceUnion sentences iL iR (pol.maxSentenceSpan.getD 1)
      ((r.1 : Int), (r.2 : Int))
  else if mode = "clause_union" then
    let r := clauseUnion t start end_
    ((r.1 : Int), (r.2 : Int))
  else
    let wt := pol.windowTokens.getD (-8, 8)
    (max 0 ((start : Int) + wt.1 * 4), min (t.length : Int) ((end_ : Int) + wt.2 * 4))

/-- Python dict assignment d[k] = v on an association list: overwrite
in place when the key exists, else append. -/
def upsert (d : List (String × α)) (k : String) (v : α) : List (String × α) :=
  if d.any (fun p => p.1 == k) then d.map (fun p => if p.1 == k then (k, v) else p)
  else d ++ [(k, v)]

/-- Sentence index of a position: the first sentence containing it. -/
def getSentenceIdx (sentences : List (Nat × Nat)) (pos : Int) : Option Nat :=
  findIdxFrom (fun se => decide ((se.1 : Int) ≤ pos) && decide (pos < (se.2 : Int))) sentences 0

/-- Midpoint by Python floor division. -/
def midOf (a : Ann) : Int := (a.start + a.end_).fdiv 2

/-- The per-sentence bucket of atomic hits (distribution by midpoint,
positions outside every sentence discarded). -/
def sentBucket (sentences : List (Nat × Nat)) (atomics : List Ann) (k : Nat) : List Ann :=
  atomics.filter (fun a => getSentenceIdx sentences (midOf a) == some k)

/-- Concatenated buckets of the sentence window i0..iR. -/
def windowAtomics (sentences : List (Nat × Nat)) (atomics : List Ann) (i0 iR : Nat) : List Ann :=
  (List.range' i0 (iR + 1 - i0)).flatMap (sentBucket sentences atomics)

/-- The per-window counts dict of compose: zero for every child id,
then incremented for every window atomic whose marker is a key. -/
def semCounts (needed : List String) (wa : List Ann) : List (String × Nat) :=
  let counts0 := needed.foldl (fun d id => upsert d id 0) []
  wa.foldl (fun d a =>
    match d.lookup a.marker_id with
    | some v => upsert d a.marker_id (v + 1)
    | none => d) counts0

/-- A composed marker of the canonical bundle as compose reads it. -/
structure SemMarker where
  id : String
  composed_of : List (String × Option ℚ) := []
  activation : Option Expr := none
  span_policy : Option SpanPolicy := none

/-- The default activation string total_children at-least 1. -/
def defaultActivation : Expr := .cmp (.name "total_children") .cge (.num 1)

/-- The default span policy dict of compose. -/
def defaultSemPolicy : SpanPolicy :=
  { mode := some "sentence_union", maxSentenceSpan := some 1 }

/-- A promotion rule record. -/
structure PromoRule where
  activate_when : Option Expr := none
  min_score : Option ℚ := none
  promote_to : Option String := none

/-- Python round(x, 3): round half to even at three decimals. -/
def pyRound3 (q : ℚ) : ℚ :=
  let y := q * 1000
  let f : Int := y.num.fdiv (y.den : Int)
  let r := y - (f : ℚ)
  let n : Int :=
    if r < 1 / 2 then f
    else if 1 / 2 < r then f + 1
    else if f % 2 = 0 then f else f + 1
  (n : ℚ) / 1000

/-- sem_core.compose: for every composed marker and every sentence
window of size 1..max_sentence_span, count the child hits, evaluate
the activation over the counts (score is not in this environment),
compute the score from the weights present, apply the span policy and
emit at most one hit per starting sentence.  The promotion and weights
arguments are received and ignored exactly as in the source. -/
def compose (text : List Char) (composeds : List SemMarker) (atomics : List Ann)
    (promotion : List (String × PromoRule)) (weights : Weights) : List Ann :=
  let sentences := sentenceBoundaries text
  composeds.flatMap (fun m =>
    if m.composed_of.isEmpty then []
    else
      let act := m.activation.getD defaultActivation
      let pol := m.span_policy.getD defaultSemPolicy
      let neededIds := m.composed_of.map Prod.fst
      let wmap := m.composed_of.foldl (fun d c => upsert d c.1 (c.2.getD 1)) []
      let maxSpan := (pol.maxSentenceSpan.getD 1).toNat
      (List.range sentences.length).filterMap (fun i0 =>
        ((List.range maxSpan).map (fun k => k + 1)).findSome? (fun ws =>
          let iR := min (sentences.length - 1) (i0 + ws - 1)
          let wa := windowAtomics sentences atomics i0 iR
          let counts := semCounts neededIds wa
          let total := (counts.map Prod.snd).sum
          if total = 0 then none
          else
            let countsT := upsert counts "total_children" total
            let env := countsT.map (fun p => (p.1, Value.q (p.2 : ℚ)))
            if truthy (evalE env act) then
              let present := countsT.foldl (fun acc p =>
                if (wmap.any (fun w => w.1 == p.1)) && decide (0 < p.2) then
                  acc + ((wmap.lookup p.1).getD 0)
                else acc) 0
              let tw0 := (wmap.map Prod.snd).sum
              let tw := if tw0 = 0 then 1 else tw0
              let score := pyRound3 (present / tw)
              let span := applySpanPolicy pol text sentences
                (sentences.getD i0 (0, 0)).1 (sentences.getD iR (0, 0)).2
              some { start := span.1, end_ := span.2, marker_id := m.id,
                     family := familyOf m.id, score := score }
            else none)))

/-- The result dict of sem_core.analyze_text. -/
structure AnalyzeResult where
  annotations : List Ann
  atomic_count : Nat
  composed_count : Nat
  final_count : Nat
deriving DecidableEq

/-- sem_core.analyze_text with the bundle already compiled: detect
atomics, compose, resolve overlaps, package counts. -/
def analyzeText (text : List Char) (rx : List (String × List Pattern × List Pattern))
    (composeds : List SemMarker) (promotion : List (String × PromoRule))
    (weights : Weights) : AnalyzeResult :=
  let atomics := detectAtomics text rx
  let comps := compose text composeds atomics promotion weights
  let final := resolveOverlaps (atomics ++ comps) weights
  { annotations := final, atomic_count := atomics.length,
    composed_count := comps.length, final_count := final.length }

/-- A span policy whose anchor-window offsets cannot leave the text:
the resolved mode is sentence_union or clause_union, or the resolved
window has a nonpositive left and nonnegative right offset (the
default window -8, +8 qualifies). -/
def GoodPolicy (pol : SpanPolicy) : Prop :=
  pol.mode.getD "anchor_window" = "sentence_union" ∨
  pol.mode.getD "anchor_window" = "clause_union" ∨
  ((pol.windowTokens.getD (-8, 8)).1 ≤ 0 ∧ 0 ≤ (pol.windowTokens.getD (-8, 8)).2)

instance : DecidablePred GoodPolicy := fun pol => by
  unfold GoodPolicy; infer_instance

/-- A composed marker whose resolved span policy is good. -/
def GoodMarker (m : SemMarker) : Prop := GoodPolicy (m.span_policy.getD defaultSemPolicy)

instance : DecidablePred GoodMarker := fun m => by
  unfold GoodMarker; infer_instance

/-! ## Concrete instances used by witnesses and counterexamples -/

/-- Composed marker of the min_children scenario: children ATO_A and
ATO_B, activation both at least once, default span policy. -/
def semAB : SemMarker :=
  { id := "SEM_AB",
    composed_of := [("ATO_A", some 1), ("ATO_B", some 1)],
    activation := some (.andE (.cmp (.name "ATO_A") .cge (.num 1))
      (.cmp (.name "ATO_B") .cge (.num 1))) }

/-- The two atomic child hits of the min_children scenario on the text
a-space-and-space-b-period. -/
def atomsAB : List Ann :=
  [{ start := 0, end_ := 1, marker_id := "ATO_A", family := "ATO", score := 1 },
   { start := 6, end_ := 7, marker_id := "ATO_B", family := "ATO", score := 1 }]

/-- Weights bundle declaring composed.min_children = 3. -/
def w3 : Weights := { minChildren := some 3 }

/-- Detect-pattern oracle with one match (0,3) on texts of length at
least three. -/
def patABC : Pattern where
  finditer := fun t => if 3 ≤ t.length then [(0, 3)] else []
  fullmatchb := fun _ => false
  finditer_le := by
    intro t p hp
    dsimp only at hp
    split at hp
    · next h =>
      simp only [List.mem_singleton] at hp
      subst hp
      simpa using h
    · simp at hp

/-- One-marker index for the bounds counterexample. -/
def rxC2 : List (String × List Pattern × List Pattern) := [("ATO_X", [patABC], [])]

/-- Composed marker with an anchor window whose left offset is
positive: (5, 0) tokens, 20 characters. -/
def semY : SemMarker :=
  { id := "SEM_Y", composed_of := [("ATO_X", some 1)],
    span_policy := some { mode := some "anchor_window", windowTokens := some (5, 0) } }

/-- Fully overlapping tied annotations differing only in marker_id. -/
def annTieA : Ann := { start := 0, end_ := 5, marker_id := "ATO_A", family := "ATO", score := 1 }

def annTieB : Ann := { start := 0, end_ := 5, marker_id := "ATO_B", family := "ATO", score := 1 }

/-! ## The ld35_engine composed-marker fragment
(LD35Model._detect_composed_markers and helpers) -/

/-- A child entry of composed_of in ld35_engine: a dict with optional
marker_id and weight, or a bare string. -/
inductive ChildSpec where
  | cdict (mid : Option String) (w : Option ℚ)
  | cstr (s : String)
deriving DecidableEq

/-- The fields of a canonical marker record (or its YAML definition)
that _detect_composed_markers reads. -/
structure MarkerSrc where
  kind : Option String := none
  composed_of : Option (List ChildSpec) := none
  min_score : Option ℚ := none
  activation : Option Expr := none
  span_policy : Option SpanPolicy := none
  family : Option String := none
  frame_concept : Option String := none
  description : Option String := none

/-- Python x or y on optional lists: None and the empty list are both
falsy. -/
def orFalsyList (a b : Option (List α)) : List α :=
  match a with
  | some l => if l.isEmpty then b.getD [] else l
  | none => b.getD []

/-- Python x or y on an optional float where 0.0 is falsy. -/
def qOrFalsy (a : Option ℚ) (b : ℚ) : ℚ :=
  match a with
  | some x => if x = 0 then b else x
  | none => b

/-- int(composed_cfg.get(min_children, 1) or 1). -/
def ldMinChildren (w : Weights) : Int :=
  let x := w.minChildren.getD 1
  if x = 0 then 1 else x

/-- float(composed_cfg.get(min_score, 0.6) or 0.6). -/
def ldMinScoreDefault (w : Weights) : ℚ :=
  let x := w.minScore.getD (6 / 10)
  if x = 0 then 6 / 10 else x

/-- float(marker min_score or definition min_score or default). -/
def ldMinScore (md defn : MarkerSrc) (w : Weights) : ℚ :=
  qOrFalsy md.min_score (qOrFalsy defn.min_score (ldMinScoreDefault w))

/-- The (child_id, weight, matches) triples: children without a
truthy id are skipped, falsy weights fall back to 1.0, matches come
from the accumulated marker_matches dict. -/
def ldChildInfo (cOf : List ChildSpec) (mm : List (String × List (Nat × Nat))) :
    List (String × ℚ × List (Nat × Nat)) :=
  cOf.filterMap (fun c =>
    match c with
    | .cdict mid w =>
      match mid with
      | some i =>
        if i = "" then none
        else some (i, (let x := w.getD 1; if x = 0 then 1 else x), (mm.lookup i).getD [])
      | none => none
    | .cstr str => if str = "" then none else some (str, 1, (mm.lookup str).getD []))

/-- The child_counts dict keyed by child id. -/
def ldCounts (ci : List (String × ℚ × List (Nat × Nat))) : List (String × Nat) :=
  ci.foldl (fun d c => upsert d c.1 c.2.2.length) []

def ldTotal (ci : List (String × ℚ × List (Nat × Nat))) : Nat :=
  ((ldCounts ci).map Prod.snd).sum

/-- score = sum(len(matches) * weight) / (sum(weight) or 1). -/
def ldScore (ci : List (String × ℚ × List (Nat × Nat))) : ℚ :=
  let ws := (ci.map (fun c => c.2.1)).sum
  let tw := if ws = 0 then 1 else ws
  (ci.map (fun c => (c.2.2.length : ℚ) * c.2.1)).sum / tw

/-- The activation context: the counts dict with score and
total_children added by dict assignment. -/
def ldContext (ci : List (String × ℚ × List (Nat × Nat))) (score : ℚ) :
    List (String × Value) :=
  let cc := (ldCounts ci).map (fun p => (p.1, Value.q (p.2 : ℚ)))
  upsert (upsert cc "score" (Value.q score)) "total_children" (Value.q ((ldTotal ci : ℚ)))

/-- Python str.startswith over the character lists. -/
def strStartsWith (s p : String) : Bool := p.toList.isPrefixOf s.toList

/-- LD35Model._get_marker_type_from_id. -/
def markerTypeFromId (mid : String) : String :=
  if strStartsWith mid "ATO_" then "ATO"
  else if strStartsWith mid "SEM_" then "SEM"
  else if strStartsWith mid "CLU_" then "CLU"
  else if strStartsWith mid "MEMA_" then "MEMA"
  else "SEM"

/-- Description half of LD35Model._get_marker_label. -/
def markerLabelDesc (md : MarkerSrc) (dflt : String) : String :=
  match md.description with
  | some d => if d.trim ≠ "" then d.trim else dflt
  | none => dflt

/-- LD35Model._get_marker_label: the frame concept when it strips
nonempty, else the stripped description, else the marker id. -/
def markerLabel (md : MarkerSrc) (dflt : String) : String :=
  match md.frame_concept with
  | some c => if c.trim ≠ "" then c else markerLabelDesc md dflt
  | none => markerLabelDesc md dflt

/-- LD35Model._find_sentence_index: first containing sentence, else
the last sentence when any exist. -/
def findSentenceIndexL (sentences : List (Nat × Nat)) (pos : Nat) : Option Nat :=
  match findIdxFrom (fun se => decide (se.1 ≤ pos) && decide (pos < se.2)) sentences 0 with
  | some i => some i
  | none => if sentences.isEmpty then none else some (sentences.length - 1)

/-- LD35Model._find_token_index: first containing token; the last
token when the position lies at or past its end; else none. -/
def findTokenIndex (tokens : List (Nat × Nat)) (pos : Nat) : Option Nat :=
  match findIdxFrom (fun tk => decide (tk.1 ≤ pos) && decide (pos < tk.2)) tokens 0 with
  | some i => some i
  | none =>
    match tokens.getLast? with
    | some lt => if lt.2 ≤ pos then some (tokens.length - 1) else none
    | none => none

/-- Python list indexing with negative wrap-around (tokens[-1] is the
last token); indices outside the list fall to the dummy span, a case
the engine never produces. -/
def pyGetTok (tokens : List (Nat × Nat)) (i : Int) : Nat × Nat :=
  if i < 0 then tokens.getD (tokens.length - (-i).toNat) (0, 0)
  else tokens.getD i.toNat (0, 0)

/-- LD35Model._anchor_window: the longest child span anchors; with no
token index the window is 50 characters each way, else window_tokens
tokens each way. -/
def anchorWindowLd (text : List Char) (tokens : List (Nat × Nat))
    (spans : List (Nat × Nat)) (pol : SpanPolicy) : Option (Nat × Nat) :=
  match spans with
  | [] => none
  | s0 :: rest =>
    let wt := pol.windowTokens.getD (-8, 8)
    let anchor := (s0 :: rest).foldl
      (fun best s => if best.2 - best.1 < s.2 - s.1 then s else best) s0
    match findTokenIndex tokens anchor.1 with
    | none =>
      some ((((anchor.1 : Int) - 50)).toNat, min text.length (anchor.2 + 50))
    | some idx =>
      let left : Int := max 0 ((idx : Int) + wt.1)
      let right : Int := min ((tokens.length : Int) - 1) ((idx : Int) + wt.2)
      some ((pyGetTok tokens left).1, (pyGetTok tokens right).2)

/-- LD35Model._apply_span_policy. -/
def applySpanPolicyLd (text : List Char) (sentences tokens : List (Nat × Nat))
    (childSpans : List (Nat × Nat)) (pol : SpanPolicy) : Option (Nat × Nat) :=
  if childSpans.isEmpty then none
  else if pol.mode.getD "anchor_window" = "sentence_union" then
    if sentences.isEmpty then anchorWindowLd text tokens childSpans pol
    else
      let ids := childSpans.filterMap (fun sp => findSentenceIndexL sentences ((sp.1 + sp.2) / 2))
      match List.insertionSort (fun a b => a ≤ b) ids.dedup with
      | [] => anchorWindowLd text tokens childSpans pol
      | first :: restIds =>
        let lastId := restIds.getLast?.getD first
        if maxSentGap : ((lastId : Int) - (first : Int) + 1) > pol.maxSentenceSpan.getD 1 then
          if pol.fallback = some "anchor_window" then anchorWindowLd text tokens childSpans pol
          else none
        else
          some ((sentences.getD first (0, 0)).1, (sentences.getD lastId (0, 0)).2)
  else anchorWindowLd text tokens childSpans pol

/-- The annotation record of ld35_engine. -/
structure AnnotationLd where
  start : Nat
  end_ : Nat
  marker : String
  family : String
  label : String
  score : ℚ
deriving DecidableEq

/-- The per-marker body of LD35Model._detect_composed_markers: kind
gate, child resolution, min_children and min_score thresholds,
activation, span policy and the promotion step, whose failing guard or
min_score drops the annotation (the continue statements of lines
686-692). -/
def processComposedMarker (text : List Char) (sentences tokens : List (Nat × Nat))
    (mm : List (String × List (Nat × Nat))) (w : Weights)
    (promoRules : List (String × PromoRule)) (mid : String)
    (md defn : MarkerSrc) : Option AnnotationLd :=
  if md.kind = some "composed" ∨ md.kind = some "COMPOSED" then
    let cOf := orFalsyList md.composed_of defn.composed_of
    let ci := ldChildInfo cOf mm
    let total := ldTotal ci
    let score := ldScore ci
    if cOf.isEmpty then none
    else if ci.isEmpty then none
    else if (total : Int) < ldMinChildren w then none
    else if score < ldMinScore md defn w then none
    else if ldEval (md.activation <|> defn.activation) (ldContext ci score) = false then none
    else
      match applySpanPolicyLd text sentences tokens (ci.flatMap (fun c => c.2.2))
          ((md.span_policy <|> defn.span_policy).getD {}) with
      | none => none
      | some span =>
        let baseFam := (md.family <|> defn.family).getD (markerTypeFromId mid)
        let label := markerLabel md mid
        match promoRules.lookup mid with
        | none =>
          some { start := span.1, end_ := span.2, marker := mid,
                 family := baseFam, label := label, score := score }
        | some rule =>
          if ldEval rule.activate_when
              [("score", Value.q score), ("total_children", Value.q ((total : ℚ)))] = false then
            none
          else if (match rule.min_score with
                   | some ms => decide (score < ms)
                   | none => false) = true then
            none
          else
            some { start := span.1, end_ := span.2, marker := mid,
                   family := rule.promote_to.getD baseFam, label := label, score := score }
  else none

/-- Concrete composed marker for the promotion scenario. -/
def mdSemX : MarkerSrc :=
  { kind := some "composed", composed_of := some [.cdict (some "ATO_A") (some 1)] }

/-- Promotion rule whose guard score greater-than 2 always fails. -/
def ruleSemX : PromoRule :=
  { activate_when := some (.cmp (.name "score") .cgt (.num 2)), promote_to := some "CLU" }

/-- One accumulated child match for ATO_A. -/
def mmA : List (String × List (Nat × Nat)) := [("ATO_A", [(0, 1)])]

/-- A composed marker with the default (sentence_union) span policy,
used in the bounds witness. -/
def semGood : SemMarker := { id := "SEM_Z", composed_of := [("ATO_X", some 1)] }

/-! ## The ld35 atomic detector (LD35Model._pattern_based_detection) -/

/-- A marker record as the ld35 atomic detector sees it: the compiled
regex specs and literal-term regexes that _collect_marker_signals
gathers (it reads only the pattern, patterns, detects, frame.signal
and examples entries of the marker data), the scoring fields, the
label fields, and the demote_if patterns that sit in the marker data
but that neither _collect_marker_signals nor _pattern_based_detection
ever reads. -/
structure AtomicSrc where
  regexSpecs : List Pattern := []
  literalPatterns : List Pattern := []
  demote_if : List Pattern := []
  scoring : Option ScoringSrc := none
  score : Option ℚ := none
  frame_concept : Option String := none
  description : Option String := none

/-- LD35Model._get_marker_label on an atomic marker record: the frame
concept when it strips nonempty, else the stripped description, else
the marker id. -/
def markerLabelA (m : AtomicSrc) (dflt : String) : String :=
  let fromDesc := match m.description with
    | some d => if d.trim ≠ "" then d.trim else dflt
    | none => dflt
  match m.frame_concept with
  | some c => if c.trim ≠ "" then c else fromDesc
  | none => fromDesc

/-- family_order of _pattern_based_detection (distinct from the
sem_core FAMILY_ORDER): ATO 0, SEM 1, CLU 2, MEMA 3, default 4. -/
def pbdFamKey (mid : String) : Nat :=
  let t := markerTypeFromId mid
  if t = "ATO" then 0 else if t = "SEM" then 1
  else if t = "CLU" then 2 else if t = "MEMA" then 3 else 4

/-- marker_matches[marker_id].append(span) on the defaultdict of
lists. -/
def mmAppend (mm : List (String × List (Nat × Nat))) (k : String) (sp : Nat × Nat) :
    List (String × List (Nat × Nat)) :=
  if mm.any (fun p => p.1 == k) then
    mm.map (fun p => if p.1 == k then (p.1, p.2 ++ [sp]) else p)
  else mm ++ [(k, [sp])]

/-- The detector state: the emitted annotations, the seen_keys set and
the marker_matches dict. -/
abbrev PbdState :=
  List AnnotationLd × List (Nat × Nat × String) × List (String × List (Nat × Nat))

/-- One finditer scan of _pattern_based_detection (the regex loop of
lines 446-464; the literal loop of lines 474-492 is the same scan at a
reduced score, the escaping and word-boundary wrapping being part of
compiling the literal term into its Pattern oracle): a zero-width
match is skipped, a (start, end, marker_id) key already seen is
skipped, and every other match appends an annotation, records its key
and appends its span to marker_matches. -/
def pbdScan (text : List Char) (mid mtype label : String) (score : ℚ)
    (pats : List Pattern) (st : PbdState) : PbdState :=
  pats.foldl (fun st1 p =>
    (p.finditer text).foldl (fun st2 sp =>
      if sp.1 == sp.2 then st2
      else if (sp.1, sp.2, mid) ∈ st2.2.1 then st2
      else (st2.1 ++ [{ start := sp.1, end_ := sp.2, marker := mid, family := mtype,
                        label := label, score := score }],
            st2.2.1 ++ [(sp.1, sp.2, mid)], mmAppend st2.2.2 mid sp)) st1) st

/-- The per-marker body of _pattern_based_detection (lines 426-492): a
marker with no collected signals is skipped; otherwise its regex specs
are scanned at the marker score and its literal terms at
max(0.4, score - 0.1).  The demote_if field of the record is never
consulted. -/
def pbdMarker (text : List Char) (mid : String) (m : AtomicSrc) (st : PbdState) : PbdState :=
  if m.regexSpecs.isEmpty && m.literalPatterns.isEmpty then st
  else
    let mtype := markerTypeFromId mid
    let label := markerLabelA m mid
    let score := getMarkerScore m.scoring m.score
    let st1 := pbdScan text mid mtype label score m.regexSpecs st
    pbdScan text mid mtype label (max (4 / 10) (score - 1 / 10)) m.literalPatterns st1

/-- LD35Model._pattern_based_detection: the marker items stably sorted
by family_order, then folded through the per-marker scan from the
empty state. -/
def patternBasedDetection (text : List Char) (markers : List (String × AtomicSrc)) :
    PbdState :=
  (List.insertionSort (fun a b => pbdFamKey a.1 ≤ pbdFamKey b.1) markers).foldl
    (fun st p => pbdMarker text p.1 p.2 st) ([], [], [])

/-- Detect-pattern oracle matching the span (0,5) on any text of
length at least five (the regex hello with IGNORECASE on the text
Hello). -/
def patHello5 : Pattern where
  finditer := fun t => if 5 ≤ t.length then [(0, 5)] else []
  fullmatchb := fun _ => false
  finditer_le := by
    intro t p hp
    dsimp only at hp
    split at hp
    · next h =>
      simp only [List.mem_singleton] at hp
      subst hp
      simpa using h
    · simp at hp

/-- Demote-pattern oracle for caret-Hello-dollar: fullmatch exactly on
the text Hello, finditer the whole span on texts of length five. -/
def demHello5 : Pattern where
  finditer := fun t => if t.length = 5 then [(0, 5)] else []
  fullmatchb := fun s => s == ['H', 'e', 'l', 'l', 'o']
  finditer_le := by
    intro t p hp
    dsimp only at hp
    split at hp
    · next h =>
      simp only [List.mem_singleton] at hp
      subst hp
      omega
    · simp at hp

/-- Marker whose one detect pattern matches the full text Hello while
its demote_if pattern fullmatches that same text. -/
def atoHello : AtomicSrc :=
  { regexSpecs := [patHello5], demote_if := [demHello5] }

/-! ## The ld35 sentence splitter (LD35Model._get_sentences) -/

/-- Maximal character run: the first offset at or after j (bounded by
N) whose character fails p; the scanner behind each plus-quantified
piece of the _get_sentences regex. -/
def runEnd (t : List Char) (N : Nat) (p : Char → Bool) : Nat → Nat → Nat
  | 0, j => j
  | f + 1, j =>
    if j < N then
      if p (t.getD j ' ') then runEnd t N p f (j + 1) else j
    else j

/-- The body class of the _get_sentences regex: anything but a period,
exclamation mark, question mark or newline. -/
def isSentChar (c : Char) : Bool :=
  !(c == '.' || c == '!' || c == '?' || c == '\n')

/-- The first trailer alternative: the three sentence enders (the ld35
regex, unlike sem_core, has no ellipsis character). -/
def isEnderLd (c : Char) : Bool := c == '.' || c == '!' || c == '?'

/-- The trailer of one regex match, starting at the first offset j
whose character left the body class: the run of enders when t[j] is an
ender, else the run of newlines. -/
def gsTrail (t : List Char) (N : Nat) (j : Nat) : Nat :=
  if isEnderLd (t.getD j ' ') then runEnd t N isEnderLd (N + 1) j
  else runEnd t N (fun c => c == '\n') (N + 1) j

/-- finditer of the _get_sentences regex: each match is a maximal
nonempty run of body characters followed by a run of enders or a run
of newlines; a body run reaching the end of the text matches nothing
and ends the scan, and an offset that cannot start a body run is
stepped over. -/
def gsLoop (t : List Char) (N : Nat) : Nat → Nat → List (Nat × Nat) → List (Nat × Nat)
  | 0, _, acc => acc
  | f + 1, i, acc =>
    if i < N then
      if isSentChar (t.getD i ' ') then
        if runEnd t N isSentChar (N + 1) (i + 1) < N then
          gsLoop t N f (gsTrail t N (runEnd t N isSentChar (N + 1) (i + 1)))
            (acc ++ [(i, gsTrail t N (runEnd t N isSentChar (N + 1) (i + 1)))])
        else acc
      else gsLoop t N f (i + 1) acc
    else acc

/-- LD35Model._get_sentences (ld35_engine.py lines 805-815): the regex
matches; the whole text as a single span when there are none; a tail
span appended when the last match ends short of the text. -/
def getSentencesLd (t : List Char) : List (Nat × Nat) :=
  match (gsLoop t t.length (t.length + 1) 0 []).getLast? with
  | none => [(0, t.length)]
  | some last =>
    if last.2 < t.length then
      gsLoop t t.length (t.length + 1) 0 [] ++ [(last.2, t.length)]
    else gsLoop t t.length (t.length + 1) 0 []

/-! ## Theorems and supporting lemmas -/

lemma skipClosing_ge (t : List Char) (N : Nat) : ∀ f j, j ≤ skipClosing t N f j := by
  intro f
  induction f with
  | zero => intro j; simp [skipClosing]
  | succ f ih =>
    intro j
    simp only [skipClosing]
    split
    · split
      · exact le_trans (Nat.le_succ j) (ih (j + 1))
      · exact le_refl j
    · exact le_refl j

lemma skipClosing_le (t : List Char) (N : Nat) : ∀ f j, j ≤ N → skipClosing t N f j ≤ N := by
  intro f
  induction f with
  | zero => intro j h; simpa [skipClosing] using h
  | succ f ih =>
    intro j h
    simp only [skipClosing]
    split
    · split
      · exact ih (j + 1) (by omega)
      · exact h
    · exact h

lemma chainEnds_concat {s e e2 : Nat} : ∀ {l : List (Nat × Nat)},
    chainEnds s l e = true → chainEnds s (l ++ [(e, e2)]) e2 = true := by
  intro l
  induction l generalizing s with
  | nil => intro h; simp [chainEnds] at h; simp [chainEnds, h]
  | cons hd tl ih =>
    intro h
    obtain ⟨a, b⟩ := hd
    simp only [chainEnds, Bool.and_eq_true] at h ⊢
    exact ⟨h.1, ih h.2⟩

lemma sbLoop_chain (t : List Char) (hnb : noDbl t = true) :
    ∀ f start i acc, start ≤ i → start ≤ t.length →
      chainEnds 0 acc start = true →
      chainEnds 0 (sbLoop t t.length f start i acc) t.length = true := by
  have hnb' : ∀ i, i < t.length →
      ¬(t.getD i ' ' == '\n' && (decide (i + 1 < t.length) &&
        (t.getD (i + 1) ' ' == '\n' || t.getD (i + 1) ' ' == '\r')) ) = true := by
    intro i hi hcond
    simp only [noDbl, Bool.not_eq_true', List.any_eq_false] at hnb
    exact absurd hcond (by simpa using hnb i (List.mem_range.mpr hi))
  intro f
  induction f with
  | zero =>
    intro start i acc hsi hsN hch
    simp only [sbLoop]
    by_cases h : start < t.length
    · simp only [if_pos h]
      exact chainEnds_concat hch
    · have : start = t.length := by omega
      subst this
      simpa using hch
  | succ f ih =>
    intro start i acc hsi hsN hch
    simp only [sbLoop]
    by_cases hi : i < t.length
    · simp only [if_pos hi]
      by_cases hend : isEnder (t.getD i ' ') = true
      · simp only [if_pos hend]
        set j := skipClosing t t.length (t.length + 1) (i + 1) with hj
        have hjge : i + 1 ≤ j := skipClosing_ge t t.length _ (i + 1)
        have hjle : j ≤ t.length := skipClosing_le t t.length _ (i + 1) (by omega)
        by_cases hsp : (t.length ≤ j || isSpaceP (t.getD j ' ')) = true
        · simp only [if_pos hsp]
          exact ih j j _ (le_refl j) hjle (chainEnds_concat hch)
        · simp only [if_neg hsp]
          exact ih start (i + 1) acc (by omega) hsN hch
      · simp only [if_neg hend]
        by_cases hdb : (t.getD i ' ' == '\n' && (decide (i + 1 < t.length) &&
            (t.getD (i + 1) ' ' == '\n' || t.getD (i + 1) ' ' == '\r'))) = true
        · exact absurd hdb (hnb' i hi)
        · simp only [if_neg hdb]
          exact ih start (i + 1) acc (by omega) hsN hch
    · simp only [if_neg hi]
      by_cases h : start < t.length
      · simp only [if_pos h]
        exact chainEnds_concat hch
      · have : start = t.length := by omega
        subst this
        simpa using hch

lemma sbLoop_last (t : List Char) :
    ∀ f start i acc, start ≤ t.length →
      (start < t.length ∨ acc.getLast?.map Prod.snd = some t.length) →
      (sbLoop t t.length f start i acc).getLast?.map Prod.snd = some t.length := by
  have hfin : ∀ start (acc : List (Nat × Nat)), start ≤ t.length →
      (start < t.length ∨ acc.getLast?.map Prod.snd = some t.length) →
      ((acc ++ (if start < t.length then [(start, t.length)] else [])).getLast?.map Prod.snd
        = some t.length) := by
    intro start acc hsN hd
    by_cases h : start < t.length
    · simp [if_pos h, List.getLast?_concat]
    · rcases hd with hd | hd
      · exact absurd hd h
      · simpa [if_neg h] using hd
  intro f
  induction f with
  | zero =>
    intro start i acc hsN hd
    exact hfin start acc hsN hd
  | succ f ih =>
    intro start i acc hsN hd
    simp only [sbLoop]
    by_cases hi : i < t.length
    · simp only [if_pos hi]
      by_cases hend : isEnder (t.getD i ' ') = true
      · simp only [if_pos hend]
        set j := skipClosing t t.length (t.length + 1) (i + 1) with hj
        have hjle : j ≤ t.length := skipClosing_le t t.length _ (i + 1) (by omega)
        by_cases hsp : (t.length ≤ j || isSpaceP (t.getD j ' ')) = true
        · simp only [if_pos hsp]
          refine ih j j _ hjle ?_
          by_cases hjN : j < t.length
          · exact Or.inl hjN
          · have hje : j = t.length := by omega
            exact Or.inr (by rw [hje]; simp [List.getLast?_concat])
        · simp only [if_neg hsp]
          exact ih start (i + 1) acc hsN hd
      · simp only [if_neg hend]
        by_cases hdb : (t.getD i ' ' == '\n' && (decide (i + 1 < t.length) &&
            (t.getD (i + 1) ' ' == '\n' || t.getD (i + 1) ' ' == '\r'))) = true
        · simp only [if_pos hdb]
          have hi1 : i + 1 < t.length := by
            simp only [Bool.and_eq_true, decide_eq_true_eq] at hdb
            exact hdb.2.1
          exact ih (i + 1) (i + 1) _ (by omega) (Or.inl hi1)
        · simp only [if_neg hdb]
          exact ih start (i + 1) acc hsN hd
    · simp only [if_neg hi]
      exact hfin start acc hsN hd

lemma runEnd_le (t : List Char) (N : Nat) (p : Char → Bool) (f : Nat) :
    ∀ j, j ≤ N → runEnd t N p f j ≤ N := by
  induction f with
  | zero => intro j h; simpa [runEnd]
  | succ f ih =>
    intro j h
    simp only [runEnd]
    split
    · next hj =>
      split
      · exact ih (j + 1) hj
      · exact h
    · exact h

lemma gsTrail_le (t : List Char) (N j : Nat) (h : j ≤ N) : gsTrail t N j ≤ N := by
  unfold gsTrail
  split
  · exact runEnd_le t N isEnderLd (N + 1) j h
  · exact runEnd_le t N (fun c => c == '\n') (N + 1) j h

lemma gsLoop_ends_le (t : List Char) (N : Nat) (f : Nat) :
    ∀ (i : Nat) (acc : List (Nat × Nat)), (∀ sp ∈ acc, sp.2 ≤ N) →
    ∀ sp ∈ gsLoop t N f i acc, sp.2 ≤ N := by
  induction f with
  | zero => intro i acc hacc; simpa [gsLoop] using hacc
  | succ f ih =>
    intro i acc hacc sp hsp
    simp only [gsLoop] at hsp
    split at hsp
    · split at hsp
      · split at hsp
        · next hj =>
          refine ih _ _ ?_ sp hsp
          intro sp2 hsp2
          rcases List.mem_append.mp hsp2 with h | h
          · exact hacc sp2 h
          · simp only [List.mem_singleton] at h
            subst h
            exact gsTrail_le t N _ (le_of_lt hj)
        · exact hacc sp hsp
      · exact ih _ _ hacc sp hsp
    · exact hacc sp hsp

lemma mem_of_getLast?_eq : ∀ (l : List α) (a : α), l.getLast? = some a → a ∈ l
  | [], _, h => by simp at h
  | [x], a, h => by
    simp only [List.getLast?_singleton, Option.some.injEq] at h
    simp [h]
  | x :: y :: l, a, h => by
    rw [List.getLast?_cons_cons] at h
    exact List.mem_cons_of_mem x (mem_of_getLast?_eq (y :: l) a h)

/-- The ld35 sentence list is never empty and its last span always
ends exactly at the text length (the regex match ends there, or the
appended tail span does). -/
lemma getSentencesLd_last (t : List Char) :
    getSentencesLd t ≠ [] ∧ (getSentencesLd t).getLast?.map Prod.snd = some t.length := by
  unfold getSentencesLd
  cases hl : (gsLoop t t.length (t.length + 1) 0 []).getLast? with
  | none => exact ⟨by simp, by simp⟩
  | some last =>
    have hle : last.2 ≤ t.length := by
      have hmem : last ∈ gsLoop t t.length (t.length + 1) 0 [] := mem_of_getLast?_eq _ _ hl
      exact gsLoop_ends_le t t.length (t.length + 1) 0 [] (by simp) last hmem
    dsimp only
    split
    · constructor
      · simp
      · rw [List.getLast?_concat]
        simp
    · next hge =>
      have heq : last.2 = t.length := le_antisymm hle (not_lt.mp hge)
      constructor
      · intro hnil
        rw [hnil] at hl
        simp at hl
      · rw [hl]
        exact congrArg some heq

/-- Claim C7 counterexample: on the text a-newline-newline-b the
sem_core sentence splitter emits spans (0,1) and (2,4): the character
at offset 1 (the first newline) belongs to no span, so consecutive
spans do not abut, contradicting the claimed coverage for texts
containing double newlines. -/
theorem sentence_gap_cex :
    sentenceBoundaries ['a', '\n', '\n', 'b'] = [(0, 1), (2, 4)] ∧
    chainEnds 0 (sentenceBoundaries ['a', '\n', '\n', 'b']) 4 = false := by
  constructor <;> decide

/-- Claim C7 (amended): for sem_core.sentence_boundaries, on every
text with no double-newline break the spans abut consecutively from 0
to the text length, and on every nonempty text the last span ends
exactly at the text length, while each double-newline break leaves a
one-character gap.  For LD35Model._get_sentences the result is never
empty and its last span always ends exactly at the text length, but
the spans need not abut: a-period-newline-b-period yields the spans
(0,2),(3,5), a gap with no double newline present, while
a-newline-newline-b yields the abutting (0,3),(3,4).  Neither
segmenter guarantees gap-free abutting coverage on all texts. -/
theorem sentence_cover_amended (t : List Char) :
    (noDbl t = true → chainEnds 0 (sentenceBoundaries t) t.length = true) ∧
    (t ≠ [] → (sentenceBoundaries t).getLast?.map Prod.snd = some t.length) ∧
    (getSentencesLd t ≠ [] ∧ (getSentencesLd t).getLast?.map Prod.snd = some t.length) ∧
    getSentencesLd ['a', '.', '\n', 'b', '.'] = [(0, 2), (3, 5)] ∧
    getSentencesLd ['a', '\n', '\n', 'b'] = [(0, 3), (3, 4)] := by
  refine ⟨?_, ?_, getSentencesLd_last t, by decide, by decide⟩
  · intro hnb
    exact sbLoop_chain t hnb (t.length + 1) 0 0 [] (Nat.zero_le 0) (Nat.zero_le _) (by simp [chainEnds])
  · intro hne
    have hlen : 0 < t.length := List.length_pos.mpr hne
    exact sbLoop_last t (t.length + 1) 0 0 [] (Nat.zero_le _) (Or.inl hlen)

/-- Witness for sentence_cover_amended at the concrete text a period
space b. -/
theorem sentence_cover_witness :
    chainEnds 0 (sentenceBoundaries ['a', '.', ' ', 'b']) 4 = true ∧
    (sentenceBoundaries ['a', '.', ' ', 'b']).getLast?.map Prod.snd = some 4 := by
  constructor
  · exact (sentence_cover_amended ['a', '.', ' ', 'b']).1 (by decide)
  · exact (sentence_cover_amended ['a', '.', ' ', 'b']).2.1 (by decide)

/-- Claim C8 counterexample: the expression x less-than 1 over the
empty environment evaluates to false under
LD35Model._evaluate_expression (the unknown name raises NameError and
the handler returns false), while the claim demands it evaluate to
true; sem_core.eval_activation indeed yields true on the same input. -/
theorem unknown_name_ld35_cex :
    ldEval (some exprXlt1) [] = false ∧ evalActivation (some exprXlt1) [] = true := by
  constructor <;> rfl

/-- Claim C8 (amended): sem_core._eval resolves a name through
env.get with default 0, so the expression x less-than 1 over the empty
environment is true; LD35Model._evaluate_expression instead fails on
the unbound name (NameError inside the Python eval) and returns false
for the whole expression. -/
theorem unknown_name_amended :
    (∀ env s, evalE env (Expr.name s) = (env.lookup s).getD (Value.q 0)) ∧
    (∀ s, evalE [] (Expr.name s) = Value.q 0) ∧
    (evalActivation (some exprXlt1) [] = true) ∧
    (∀ s, evalPy [] (Expr.name s) = Except.error ()) ∧
    (ldEval (some exprXlt1) [] = false) := by
  refine ⟨fun env s => rfl, fun s => rfl, rfl, fun s => rfl, rfl⟩

lemma shouldDemote_iff (t : List Char) (s e : Nat) (dems : List Pattern) :
    shouldDemote t s e dems = true ↔
      ((∃ p ∈ dems, p.fullmatchb (sliceL t s e) = true) ∨
       (∃ p ∈ dems, ∃ m ∈ p.finditer t, s < m.2 ∧ m.1 < e)) := by
  unfold shouldDemote
  split
  · next h =>
    rw [List.isEmpty_iff] at h
    subst h
    simp
  · simp only [Bool.or_eq_true, List.any_eq_true, Bool.not_eq_true',
      Bool.or_eq_false_iff, decide_eq_false_iff_not, not_le]

lemma eq_of_map_fst_nodup {α β : Type} {l : List (α × β)}
    (h : (l.map Prod.fst).Nodup) {x y : α × β}
    (hx : x ∈ l) (hy : y ∈ l) (hxy : x.1 = y.1) : x = y := by
  induction l with
  | nil => cases hx
  | cons hd tl ih =>
    simp only [List.map_cons, List.nodup_cons] at h
    rcases List.mem_cons.mp hx with hx1 | hx1 <;> rcases List.mem_cons.mp hy with hy1 | hy1
    · rw [hx1, hy1]
    · exfalso
      apply h.1
      rw [hx1] at hxy
      exact hxy ▸ List.mem_map_of_mem Prod.fst hy1
    · exfalso
      apply h.1
      rw [hy1] at hxy
      exact hxy ▸ List.mem_map_of_mem Prod.fst hx1
    · exact ih h.2 hx1 hy1

lemma mem_detectAtomics {t : List Char} {rx : List (String × List Pattern × List Pattern)}
    {a : Ann} :
    a ∈ detectAtomics t rx ↔
      ∃ entry ∈ rx, ∃ p ∈ entry.2.1, ∃ m ∈ p.finditer t,
        m.1 < m.2 ∧ shouldDemote t m.1 m.2 entry.2.2 = false ∧ a = mkAtomic entry.1 m.1 m.2 := by
  unfold detectAtomics
  rw [(List.perm_insertionSort atomicLe _).mem_iff]
  simp only [List.mem_flatMap, List.mem_filterMap]
  constructor
  · rintro ⟨entry, hentry, p, hp, m, hm, heq⟩
    refine ⟨entry, hentry, p, hp, m, hm, ?_⟩
    by_cases h1 : m.2 ≤ m.1
    · rw [if_pos h1] at heq
      cases heq
    · rw [if_neg h1] at heq
      by_cases h2 : shouldDemote t m.1 m.2 entry.2.2 = true
      · rw [if_pos h2] at heq
        cases heq
      · rw [if_neg h2] at heq
        cases heq
        exact ⟨by omega, by simpa using h2, rfl⟩
  · rintro ⟨entry, hentry, p, hp, m, hm, h1, h2, h3⟩
    refine ⟨entry, hentry, p, hp, m, hm, ?_⟩
    rw [if_neg (by omega), if_neg (by simp [h2]), h3]

/-- Characterisation of demote filtering in sem_core.detect_atomics:
the detector drops a nonzero-width detect match (s,e) exactly when a
demote pattern of the marker fullmatches the matched text or a demote
match anywhere in the text overlaps the hit; consequently no emitted
hit of that marker has its text fullmatched by one of the marker
demote patterns. -/
lemma detectAtomics_demote_char
    (t : List Char) (rx : List (String × List Pattern × List Pattern))
    (mid : String) (dets dems : List Pattern) (s e : Nat)
    (hnodup : (rx.map Prod.fst).Nodup)
    (hmem : (mid, dets, dems) ∈ rx)
    (hse : s < e)
    (hdet : ∃ p ∈ dets, (s, e) ∈ p.finditer t) :
    ((mkAtomic mid s e ∈ detectAtomics t rx) ↔
        ¬((∃ p ∈ dems, p.fullmatchb (sliceL t s e) = true) ∨
          (∃ p ∈ dems, ∃ m ∈ p.finditer t, s < m.2 ∧ m.1 < e))) ∧
    (∀ (s2 e2 : Nat), mkAtomic mid s2 e2 ∈ detectAtomics t rx →
        ∀ p ∈ dems, p.fullmatchb (sliceL t s2 e2) = false) := by
  have key : ∀ (s2 e2 : Nat), mkAtomic mid s2 e2 ∈ detectAtomics t rx →
      shouldDemote t s2 e2 dems = false := by
    intro s2 e2 hmem2
    rcases mem_detectAtomics.mp hmem2 with ⟨entry, hentry, p, hp, m, hm, hlt, hsd, heq⟩
    have hfst : entry.1 = mid := by
      have := congrArg Ann.marker_id heq
      simpa [mkAtomic] using this.symm
    have hentry_eq : entry = (mid, dets, dems) :=
      eq_of_map_fst_nodup hnodup hentry hmem hfst
    have hm1 : m.1 = s2 := by
      have := congrArg Ann.start heq
      simp [mkAtomic] at this
      exact_mod_cast this.symm
    have hm2 : m.2 = e2 := by
      have := congrArg Ann.end_ heq
      simp [mkAtomic] at this
      exact_mod_cast this.symm
    rw [hentry_eq] at hsd
    rw [hm1, hm2] at hsd
    exact hsd
  constructor
  · constructor
    · intro hmem2 hcond
      have hsd := key s e hmem2
      rw [← shouldDemote_iff t s e dems] at hcond
      rw [hsd] at hcond
      cases hcond
    · intro hcond
      rcases hdet with ⟨p, hp, hpm⟩
      refine mem_detectAtomics.mpr ⟨(mid, dets, dems), hmem, p, hp, (s, e), hpm, hse, ?_, rfl⟩
      rw [← Bool.not_eq_true, shouldDemote_iff t s e dems]
      exact hcond
  · intro s2 e2 hmem2 p hp
    have hsd := key s2 e2 hmem2
    by_contra hfm
    rw [Bool.not_eq_false] at hfm
    have : shouldDemote t s2 e2 dems = true :=
      (shouldDemote_iff t s2 e2 dems).mpr (Or.inl ⟨p, hp, hfm⟩)
    rw [hsd] at this
    cases this

/-- Claim C3 counterexample: the ld35 pattern detector emits the hit
(0,5) for marker ATO_HELLO on the text Hello although the marker's
demote_if pattern fullmatches the hit text: _pattern_based_detection
never consults demote_if, so the claimed drop does not happen there. -/
theorem pattern_detection_demote_cex :
    (patternBasedDetection ['H', 'e', 'l', 'l', 'o'] [("ATO_HELLO", atoHello)]).1 =
      [{ start := 0, end_ := 5, marker := "ATO_HELLO", family := "ATO",
         label := "ATO_HELLO", score := 7 / 10 }] ∧
    atoHello.demote_if = [demHello5] ∧
    demHello5.fullmatchb (sliceL ['H', 'e', 'l', 'l', 'o'] 0 5) = true := by
  refine ⟨by decide, rfl, by decide⟩

/-- Claim C3 (amended): sem_core.detect_atomics drops a nonzero-width
detect match exactly when a demote pattern of the marker fullmatches
the matched text or a demote match anywhere in the text overlaps the
hit, so no emitted sem_core hit has its text fullmatched by a demote
pattern of its marker; but LD35Model._pattern_based_detection never
reads demote_if — its per-marker scan and its output are unchanged
under any replacement of the marker's demote patterns — so that
detector emits hits whose text fullmatches a demote pattern. -/
theorem demote_handling_amended :
    (∀ (t : List Char) (rx : List (String × List Pattern × List Pattern))
        (mid : String) (dets dems : List Pattern) (s e : Nat),
        (rx.map Prod.fst).Nodup → (mid, dets, dems) ∈ rx → s < e →
        (∃ p ∈ dets, (s, e) ∈ p.finditer t) →
        ((mkAtomic mid s e ∈ detectAtomics t rx) ↔
            ¬((∃ p ∈ dems, p.fullmatchb (sliceL t s e) = true) ∨
              (∃ p ∈ dems, ∃ m ∈ p.finditer t, s < m.2 ∧ m.1 < e))) ∧
        (∀ (s2 e2 : Nat), mkAtomic mid s2 e2 ∈ detectAtomics t rx →
            ∀ p ∈ dems, p.fullmatchb (sliceL t s2 e2) = false)) ∧
    (∀ (text : List Char) (mid : String) (m : AtomicSrc) (d : List Pattern) (st : PbdState),
        pbdMarker text mid { m with demote_if := d } st = pbdMarker text mid m st) ∧
    (∀ (text : List Char) (mid : String) (m : AtomicSrc) (d : List Pattern),
        patternBasedDetection text [(mid, { m with demote_if := d })] =
          patternBasedDetection text [(mid, m)]) := by
  refine ⟨fun t rx mid dets dems s e h1 h2 h3 h4 =>
      detectAtomics_demote_char t rx mid dets dems s e h1 h2 h3 h4,
    fun _ _ _ _ _ => rfl, fun _ _ _ _ => rfl⟩

/-- Witness for demote_handling_amended: on the one-marker index the
sem_core hit (0,2) survives because its demote pattern neither
fullmatches nor overlaps, and the ld35 scan of the Hello marker is
literally unchanged when its demote patterns are erased. -/
theorem detect_atomics_demote_witness :
    mkAtomic "ATO_X" 0 2 ∈ detectAtomics ['a', 'b'] rxSmall ∧
    patternBasedDetection ['H', 'e', 'l', 'l', 'o']
        [("ATO_HELLO", { atoHello with demote_if := [] })] =
      patternBasedDetection ['H', 'e', 'l', 'l', 'o'] [("ATO_HELLO", atoHello)] := by
  constructor
  · have h := demote_handling_amended.1 ['a', 'b'] rxSmall "ATO_X" [patAB] [patDemoteZ] 0 2
      (by simp [rxSmall]) (by simp [rxSmall]) (by omega)
      ⟨patAB, by simp, by decide⟩
    refine h.1.mpr ?_
    rintro (⟨p, hp, hfm⟩ | ⟨p, hp, m, hm, h1, h2⟩)
    · simp only [List.mem_singleton] at hp
      subst hp
      revert hfm
      decide
    · simp only [List.mem_singleton] at hp
      subst hp
      simp [patDemoteZ] at hm
  · exact demote_handling_amended.2.2 ['H', 'e', 'l', 'l', 'o'] "ATO_HELLO" atoHello []

/-- Claim C6 counterexample: a bundle with one atomic marker and no
declared score yields, through sem_core.detect_atomics, a hit with
score 1.0, not the claimed 0.7 (the detector hard-codes score 1.0). -/
theorem atomic_score_one_cex :
    detectAtomics ['a', 'b'] rxSmall = [mkAtomic "ATO_X" 0 2] ∧
    (mkAtomic "ATO_X" 0 2).score = 1 ∧ (1 : ℚ) ≠ 7 / 10 := by
  refine ⟨by decide, rfl, by norm_num⟩

/-- Claim C6 (amended): every atomic hit emitted by
sem_core.detect_atomics has score exactly 1.0 whatever the marker
declares; in ld35_engine, LD35Model._get_marker_score yields 0.7 only
when the marker declares no numeric score at all, and every score it
returns is at least 0.3. -/
theorem atomic_score_amended :
    (∀ (t : List Char) (rx : List (String × List Pattern × List Pattern)) (a : Ann),
        a ∈ detectAtomics t rx → a.score = 1) ∧
    (∀ sc ex, scoreCandidates sc ex = [] → getMarkerScore sc ex = 7 / 10) ∧
    (getMarkerScore none none = 7 / 10) ∧
    (∀ sc ex, 3 / 10 ≤ getMarkerScore sc ex) := by
  refine ⟨?_, ?_, rfl, ?_⟩
  · intro t rx a ha
    rcases mem_detectAtomics.mp ha with ⟨entry, _, p, _, m, _, _, _, heq⟩
    rw [heq]
    rfl
  · intro sc ex h
    unfold getMarkerScore
    rw [h]
  · intro sc ex
    unfold getMarkerScore
    rcases hc : scoreCandidates sc ex with _ | ⟨c, cs⟩
    · norm_num
    · exact le_max_left _ _

/-- Witness for atomic_score_amended: the concrete hit of the small
index has score 1, and a marker with no scoring information gets 0.7. -/
theorem atomic_score_witness :
    (mkAtomic "ATO_X" 0 2).score = 1 ∧ getMarkerScore none none = 7 / 10 :=
  ⟨atomic_score_amended.1 ['a', 'b'] rxSmall (mkAtomic "ATO_X" 0 2) (by decide),
   atomic_score_amended.2.2.1⟩

lemma overlapb_true_iff {c k : Ann} :
    overlapb c k = true ↔ (k.start < c.end_ ∧ c.start < k.end_) := by
  unfold overlapb
  simp only [Bool.not_eq_true', Bool.or_eq_false_iff, decide_eq_false_iff_not, not_le]

lemma overlapb_false_iff {c k : Ann} :
    overlapb c k = false ↔ (c.end_ ≤ k.start ∨ k.end_ ≤ c.start) := by
  rw [← Bool.not_eq_true, overlapb_true_iff]
  constructor
  · intro h
    by_contra h2
    push_neg at h2
    exact h ⟨by omega, by omega⟩
  · intro h h2
    omega

lemma insertAnn_mem {c : Ann} : ∀ {kept kept2 : List Ann},
    insertAnn c kept = some kept2 → ∀ x ∈ kept2, x ∈ kept ∨ x = c := by
  intro kept
  induction kept with
  | nil => intro kept2 h; cases h
  | cons k ks ih =>
    intro kept2 heq x hx
    unfold insertAnn at heq
    by_cases hov : overlapb c k = true
    · rw [if_pos hov] at heq
      injection heq with heq
      subst heq
      by_cases hb : beats c k = true
      · rw [if_pos hb] at hx
        rcases List.mem_cons.mp hx with hx | hx
        · exact Or.inr hx
        · exact Or.inl (List.mem_cons_of_mem k hx)
      · rw [if_neg hb] at hx
        exact Or.inl hx
    · rw [if_neg hov] at heq
      cases hks : insertAnn c ks with
      | none => rw [hks] at heq; cases heq
      | some ks2 =>
        rw [hks] at heq
        injection heq with heq
        subst heq
        rcases List.mem_cons.mp hx with hx | hx
        · exact Or.inl (hx ▸ List.mem_cons_self k ks)
        · rcases ih hks x hx with h | h
          · exact Or.inl (List.mem_cons_of_mem k h)
          · exact Or.inr h

lemma insertAnn_none {c : Ann} : ∀ {kept : List Ann},
    insertAnn c kept = none → ∀ k ∈ kept, overlapb c k = false := by
  intro kept
  induction kept with
  | nil => intro _ k hk; cases hk
  | cons k ks ih =>
    intro heq x hx
    unfold insertAnn at heq
    by_cases hov : overlapb c k = true
    · rw [if_pos hov] at heq; cases heq
    · rw [if_neg hov] at heq
      cases hks : insertAnn c ks with
      | none =>
        rcases List.mem_cons.mp hx with hx | hx
        · rw [hx]; exact Bool.not_eq_true _ ▸ hov
        · exact ih hks x hx
      | some ks2 => rw [hks] at heq; cases heq

lemma insertAnn_length {c : Ann} : ∀ {kept kept2 : List Ann},
    insertAnn c kept = some kept2 → kept2.length = kept.length := by
  intro kept
  induction kept with
  | nil => intro kept2 h; cases h
  | cons k ks ih =>
    intro kept2 heq
    unfold insertAnn at heq
    by_cases hov : overlapb c k = true
    · rw [if_pos hov] at heq
      injection heq with heq
      subst heq
      by_cases hb : beats c k = true
      · rw [if_pos hb]; simp
      · rw [if_neg hb]
    · rw [if_neg hov] at heq
      cases hks : insertAnn c ks with
      | none => rw [hks] at heq; cases heq
      | some ks2 =>
        rw [hks] at heq
        injection heq with heq
        subst heq
        simp [ih hks]

lemma insertAnn_pairwise {c : Ann} : ∀ {kept kept2 : List Ann},
    kept.Pairwise NonOverlap → (∀ k ∈ kept, k.start ≤ c.start) →
    insertAnn c kept = some kept2 → kept2.Pairwise NonOverlap := by
  intro kept
  induction kept with
  | nil => intro kept2 _ _ h; cases h
  | cons k ks ih =>
    intro kept2 hpw hlow heq
    rw [List.pairwise_cons] at hpw
    unfold insertAnn at heq
    by_cases hov : overlapb c k = true
    · rw [if_pos hov] at heq
      injection heq with heq
      subst heq
      by_cases hb : beats c k = true
      · rw [if_pos hb]
        rw [List.pairwise_cons]
        refine ⟨?_, hpw.2⟩
        intro k2 hk2
        have hovk := overlapb_true_iff.mp hov
        have h1 := hlow k (List.mem_cons_self k ks)
        have h2 := hlow k2 (List.mem_cons_of_mem k hk2)
        have hnk := hpw.1 k2 hk2
        unfold NonOverlap at hnk ⊢
        by_contra hno
        push_neg at hno
        rcases hnk with hA | hB <;> omega
      · rw [if_neg hb]
        exact List.pairwise_cons.mpr hpw
    · rw [if_neg hov] at heq
      cases hks : insertAnn c ks with
      | none => rw [hks] at heq; cases heq
      | some ks2 =>
        rw [hks] at heq
        injection heq with heq
        subst heq
        rw [List.pairwise_cons]
        constructor
        · intro k2 hk2
          rcases insertAnn_mem hks k2 hk2 with hk2m | hk2m
          · exact hpw.1 k2 hk2m
          · subst hk2m
            have := overlapb_false_iff.mp (Bool.not_eq_true _ ▸ hov)
            unfold NonOverlap
            omega
        · exact ih hpw.2 (fun x hx => hlow x (List.mem_cons_of_mem k hx)) hks

lemma resolveStep_mem {kept : List Ann} {c x : Ann}
    (hx : x ∈ resolveStep kept c) : x ∈ kept ∨ x = c := by
  unfold resolveStep at hx
  cases hins : insertAnn c kept with
  | none =>
    rw [hins] at hx
    rcases List.mem_append.mp hx with h | h
    · exact Or.inl h
    · simp only [List.mem_singleton] at h
      exact Or.inr h
  | some kept2 =>
    rw [hins] at hx
    exact insertAnn_mem hins x hx

lemma resolveStep_pairwise {kept : List Ann} {c : Ann}
    (hpw : kept.Pairwise NonOverlap) (hlow : ∀ k ∈ kept, k.start ≤ c.start) :
    (resolveStep kept c).Pairwise NonOverlap := by
  unfold resolveStep
  cases hins : insertAnn c kept with
  | none =>
    rw [List.pairwise_append]
    refine ⟨hpw, List.pairwise_singleton _ _, ?_⟩
    intro k hk c2 hc2
    simp only [List.mem_singleton] at hc2
    subst hc2
    have := overlapb_false_iff.mp (insertAnn_none hins k hk)
    unfold NonOverlap
    omega
  | some kept2 => exact insertAnn_pairwise hpw hlow hins

lemma resolveStep_length {kept : List Ann} {c : Ann} :
    (resolveStep kept c).length ≤ kept.length + 1 := by
  unfold resolveStep
  cases hins : insertAnn c kept with
  | none => simp
  | some kept2 => rw [insertAnn_length hins]; omega

lemma foldl_resolveStep_pairwise : ∀ (l kept : List Ann),
    l.Pairwise (fun x y => x.start ≤ y.start) → kept.Pairwise NonOverlap →
    (∀ k ∈ kept, ∀ c ∈ l, k.start ≤ c.start) →
    (l.foldl resolveStep kept).Pairwise NonOverlap := by
  intro l
  induction l with
  | nil => intro kept _ h _; exact h
  | cons c rest ih =>
    intro kept hsort hpw hlow
    rw [List.pairwise_cons] at hsort
    simp only [List.foldl]
    refine ih (resolveStep kept c) hsort.2 ?_ ?_
    · exact resolveStep_pairwise hpw (fun k hk => hlow k hk c (List.mem_cons_self c rest))
    · intro k hk c2 hc2
      rcases resolveStep_mem hk with hk2 | hk2
      · exact hlow k hk2 c2 (List.mem_cons_of_mem c hc2)
      · subst hk2
        exact hsort.1 c2 hc2

lemma foldl_resolveStep_mem : ∀ (l kept : List Ann) (x : Ann),
    x ∈ l.foldl resolveStep kept → x ∈ kept ∨ x ∈ l := by
  intro l
  induction l with
  | nil => intro kept x h; exact Or.inl h
  | cons c rest ih =>
    intro kept x hx
    simp only [List.foldl] at hx
    rcases ih (resolveStep kept c) x hx with h | h
    · rcases resolveStep_mem h with h2 | h2
      · exact Or.inl h2
      · exact Or.inr (h2 ▸ List.mem_cons_self c rest)
    · exact Or.inr (List.mem_cons_of_mem c h)

lemma foldl_resolveStep_length : ∀ (l kept : List Ann),
    (l.foldl resolveStep kept).length ≤ kept.length + l.length := by
  intro l
  induction l with
  | nil => intro kept; simp
  | cons c rest ih =>
    intro kept
    simp only [List.foldl, List.length_cons]
    calc (rest.foldl resolveStep (resolveStep kept c)).length
        ≤ (resolveStep kept c).length + rest.length := ih (resolveStep kept c)
      _ ≤ kept.length + 1 + rest.length := by
          have h2 : (resolveStep kept c).length ≤ kept.length + 1 := resolveStep_length
          omega
      _ = kept.length + (rest.length + 1) := by omega

lemma annLe_start {a b : Ann} (h : annLe a b) : a.start ≤ b.start := by
  rcases h with h | ⟨h, _⟩
  · exact le_of_lt h
  · exact le_of_eq h

lemma resolveOverlaps_pairwise (anns : List Ann) (w : Weights) :
    (resolveOverlaps anns w).Pairwise NonOverlap := by
  unfold resolveOverlaps
  refine foldl_resolveStep_pairwise _ [] ?_ List.Pairwise.nil ?_
  · exact (List.sorted_insertionSort annLe anns).imp annLe_start
  · intro k hk
    cases hk

/-- Claim C1: for every text and compiled bundle, the annotations of
the analysis result are pairwise non-overlapping, and the overlap
resolver guarantees this for every input list. -/
theorem analyze_final_nonoverlap :
    (∀ (anns : List Ann) (w : Weights), (resolveOverlaps anns w).Pairwise NonOverlap) ∧
    (∀ (text : List Char) (rx : List (String × List Pattern × List Pattern))
       (composeds : List SemMarker) (promotion : List (String × PromoRule)) (w : Weights),
      (analyzeText text rx composeds promotion w).annotations.Pairwise NonOverlap) :=
  ⟨resolveOverlaps_pairwise,
   fun text rx composeds promotion w =>
     resolveOverlaps_pairwise
       (detectAtomics text rx ++
        compose text composeds (detectAtomics text rx) promotion w) w⟩

/-- Claim C10: the overlap resolver only selects: every output
annotation is an element of the input list with all fields unchanged,
the output is never longer than the input, and the final count of
analyze_text never exceeds atomic count plus composed count. -/
lemma resolveOverlaps_subset (anns : List Ann) (w : Weights) :
    ∀ a ∈ resolveOverlaps anns w, a ∈ anns := by
  intro a ha
  unfold resolveOverlaps at ha
  rcases foldl_resolveStep_mem _ [] a ha with h | h
  · cases h
  · exact (List.perm_insertionSort annLe anns).mem_iff.mp h

lemma resolveOverlaps_length_le (anns : List Ann) (w : Weights) :
    (resolveOverlaps anns w).length ≤ anns.length := by
  unfold resolveOverlaps
  calc ((List.insertionSort annLe anns).foldl resolveStep []).length
      ≤ ([] : List Ann).length + (List.insertionSort annLe anns).length :=
        foldl_resolveStep_length _ []
    _ = anns.length := by
        rw [(List.perm_insertionSort annLe anns).length_eq]
        simp

theorem resolve_selects_subset :
    (∀ (anns : List Ann) (w : Weights), ∀ a ∈ resolveOverlaps anns w, a ∈ anns) ∧
    (∀ (anns : List Ann) (w : Weights), (resolveOverlaps anns w).length ≤ anns.length) ∧
    (∀ (text : List Char) (rx : List (String × List Pattern × List Pattern))
       (composeds : List SemMarker) (promotion : List (String × PromoRule)) (w : Weights),
      (analyzeText text rx composeds promotion w).final_count ≤
        (analyzeText text rx composeds promotion w).atomic_count +
        (analyzeText text rx composeds promotion w).composed_count) := by
  refine ⟨resolveOverlaps_subset, resolveOverlaps_length_le, ?_⟩
  intro text rx composeds promotion w
  have h := resolveOverlaps_length_le (detectAtomics text rx ++
    compose text composeds (detectAtomics text rx) promotion w) w
  simpa [analyzeText] using h

/-- Claim C9 counterexample: two fully overlapping hits with equal
family, score and length are resolved by input order, not by
lexicographic marker_id: the permuted inputs give different outputs,
and with ATO_B first the kept hit is ATO_B although ATO_A is
lexicographically smaller. -/
theorem resolve_tiebreak_cex :
    resolveOverlaps [annTieB, annTieA] {} ≠ resolveOverlaps [annTieA, annTieB] {} ∧
    resolveOverlaps [annTieB, annTieA] {} = [annTieB] := by
  constructor <;> decide

/-- Claim C9 (amended): on a full tie of family rank, score, start and
end, the resolver keeps whichever tied annotation comes first in the
input list (Python sort is stable and the existing kept item wins);
marker_id is never consulted, so the output is not invariant under
permutation of tied inputs. -/
theorem resolve_tiebreak_amended (a b : Ann)
    (hs : a.start = b.start) (he : a.end_ = b.end_) (hlt : a.start < a.end_)
    (hf : famRank a.family = famRank b.family) (hsc : a.score = b.score) :
    resolveOverlaps [a, b] {} = [a] := by
  have hannle : annLe a b := Or.inr ⟨hs, by rw [he, hs]⟩
  have hsort : List.insertionSort annLe [a, b] = [a, b] := by
    simp only [List.insertionSort, List.orderedInsert]
    rw [if_pos hannle]
  have hov : overlapb b a = true := by
    rw [overlapb_true_iff]
    omega
  have hbeats : beats b a = false := by
    unfold beats
    simp only [← hf, ← hsc, ← hs, ← he]
    simp
  unfold resolveOverlaps
  rw [hsort]
  simp only [List.foldl]
  have h1 : resolveStep [] a = [a] := rfl
  rw [h1]
  unfold resolveStep insertAnn
  rw [if_pos hov, if_neg (by rw [hbeats]; exact Bool.false_ne_true)]

/-- Witness for resolve_tiebreak_amended on the tied pair: with ATO_A
first in the input, ATO_A is kept. -/
theorem resolve_tiebreak_witness :
    resolveOverlaps [annTieA, annTieB] {} = [annTieA] :=
  resolve_tiebreak_amended annTieA annTieB rfl rfl (by decide) rfl rfl

/-- Claim C4 counterexample: with weights declaring
composed.min_children = 3 and only two child hits present, compose
still emits the composed hit (sem_core.compose never reads
min_children). -/
theorem compose_min_children_cex :
    compose ['a', ' ', 'a', 'n', 'd', ' ', 'b', '.'] [semAB] atomsAB [] w3 =
      [{ start := 0, end_ := 8, marker_id := "SEM_AB", family := "SEM", score := 1 }] ∧
    w3.minChildren = some 3 ∧ atomsAB.length = 2 := by
  refine ⟨by decide, rfl, rfl⟩

/-- Claim C2 counterexample: with an anchor_window policy whose token
window is (5, 0), the pipeline emits a composed annotation with start
20 on a text of length 3, violating 0 le start lt end le len(text). -/
theorem analyze_bounds_cex :
    ({ start := 20, end_ := 3, marker_id := "SEM_Y", family := "SEM", score := 1 } : Ann) ∈
      (analyzeText ['a', 'b', 'c'] rxC2 [semY] [] {}).annotations ∧
    ¬(0 ≤ (20 : Int) ∧ (20 : Int) < 3 ∧ (3 : Int) ≤ (['a', 'b', 'c'] : List Char).length) := by
  constructor
  · decide
  · intro h
    omega

/-- Claim C4 (amended): sem_core.compose performs no min_children
check at all: its result does not depend on the weights bundle (nor on
the promotion map); only the ld35_engine composed detector enforces a
minimum, and what it compares against is the weights-level
composed.min_children default, under which the marker emits nothing. -/
theorem min_children_amended :
    (∀ (text : List Char) (composeds : List SemMarker) (atomics : List Ann)
       (p p2 : List (String × PromoRule)) (w w2 : Weights),
        compose text composeds atomics p w = compose text composeds atomics p2 w2) ∧
    (∀ (text : List Char) (sentences tokens : List (Nat × Nat))
       (mm : List (String × List (Nat × Nat))) (w : Weights)
       (promoRules : List (String × PromoRule)) (mid : String) (md defn : MarkerSrc),
        ((ldTotal (ldChildInfo (orFalsyList md.composed_of defn.composed_of) mm)) : Int) <
            ldMinChildren w →
        processComposedMarker text sentences tokens mm w promoRules mid md defn = none) := by
  constructor
  · intro text composeds atomics p p2 w w2
    rfl
  · intro text sentences tokens mm w promoRules mid md defn hlt
    simp only [processComposedMarker]
    by_cases hk : (md.kind = some "composed" ∨ md.kind = some "COMPOSED")
    · rw [if_pos hk]
      by_cases h1 : (orFalsyList md.composed_of defn.composed_of).isEmpty
      · rw [if_pos h1]
      · rw [if_neg h1]
        by_cases h2 : (ldChildInfo (orFalsyList md.composed_of defn.composed_of) mm).isEmpty
        · rw [if_pos h2]
        · rw [if_neg h2]
          rw [if_pos hlt]
    · rw [if_neg hk]

/-- Witness for min_children_amended: a marker with one child and no
accumulated matches has total 0 below the default minimum 1 and emits
nothing. -/
theorem min_children_witness :
    processComposedMarker ['a', 'b'] [] [] [] {} [] "SEM_X" mdSemX {} = none :=
  min_children_amended.2 ['a', 'b'] [] [] [] {} [] "SEM_X" mdSemX {} (by decide)

/-- Claim C5 counterexample: a composed hit whose promotion guard
fails (score 1 is not greater than 2) is dropped entirely by
ld35_engine, while the identical configuration without the rule emits
the hit; the claim said a failing guard only skips the relabel. -/
theorem promotion_guard_drop_cex :
    processComposedMarker ['a', 'b'] [] [] mmA {} [("SEM_X", ruleSemX)] "SEM_X" mdSemX {} =
      none ∧
    processComposedMarker ['a', 'b'] [] [] mmA {} [] "SEM_X" mdSemX {} =
      some { start := 0, end_ := 2, marker := "SEM_X", family := "SEM",
             label := "SEM_X", score := 1 } := by
  constructor <;> decide

/-- Claim C5 (amended): in ld35_engine a composed hit whose promotion
guard evaluates false is dropped entirely, emitting no annotation for
that marker; in sem_core promotion is never applied: compose does not
depend on the promotion argument at all. -/
theorem promotion_guard_amended :
    (∀ (text : List Char) (composeds : List SemMarker) (atomics : List Ann)
       (p p2 : List (String × PromoRule)) (w : Weights),
        compose text composeds atomics p w = compose text composeds atomics p2 w) ∧
    (∀ (text : List Char) (sentences tokens : List (Nat × Nat))
       (mm : List (String × List (Nat × Nat))) (w : Weights)
       (promoRules : List (String × PromoRule)) (mid : String) (md defn : MarkerSrc)
       (rule : PromoRule),
        promoRules.lookup mid = some rule →
        ldEval rule.activate_when
          [("score", Value.q (ldScore (ldChildInfo (orFalsyList md.composed_of defn.composed_of) mm))),
           ("total_children", Value.q (((ldTotal (ldChildInfo (orFalsyList md.composed_of defn.composed_of) mm)) : ℚ)))]
          = false →
        processComposedMarker text sentences tokens mm w promoRules mid md defn = none) := by
  constructor
  · intro text composeds atomics p p2 w
    rfl
  · intro text sentences tokens mm w promoRules mid md defn rule hrule hguard
    simp only [processComposedMarker]
    by_cases hk : (md.kind = some "composed" ∨ md.kind = some "COMPOSED")
    · rw [if_pos hk]
      by_cases h1 : (orFalsyList md.composed_of defn.composed_of).isEmpty
      · rw [if_pos h1]
      · rw [if_neg h1]
        by_cases h2 : (ldChildInfo (orFalsyList md.composed_of defn.composed_of) mm).isEmpty
        · rw [if_pos h2]
        · rw [if_neg h2]
          by_cases h3 : ((ldTotal (ldChildInfo (orFalsyList md.composed_of defn.composed_of) mm)) : Int) <
              ldMinChildren w
          · rw [if_pos h3]
          · rw [if_neg h3]
            by_cases h4 : ldScore (ldChildInfo (orFalsyList md.composed_of defn.composed_of) mm) <
                ldMinScore md defn w
            · rw [if_pos h4]
            · rw [if_neg h4]
              by_cases h5 : ldEval (md.activation <|> defn.activation)
                  (ldContext (ldChildInfo (orFalsyList md.composed_of defn.composed_of) mm)
                    (ldScore (ldChildInfo (orFalsyList md.composed_of defn.composed_of) mm))) = false
              · rw [if_pos h5]
              · rw [if_neg h5]
                cases happ : applySpanPolicyLd text sentences tokens
                    ((ldChildInfo (orFalsyList md.composed_of defn.composed_of) mm).flatMap
                      (fun c => c.2.2))
                    ((md.span_policy <|> defn.span_policy).getD {}) with
                | none => rfl
                | some span =>
                  rw [hrule]
                  dsimp only
                  rw [if_pos hguard]
    · rw [if_neg hk]

/-- Witness for promotion_guard_amended at the concrete marker whose
guard compares score 1 against 2. -/
theorem promotion_guard_witness :
    processComposedMarker ['a', 'b'] [] [] mmA {} [("SEM_X", ruleSemX)] "SEM_X" mdSemX {} =
      none :=
  promotion_guard_amended.2 ['a', 'b'] [] [] mmA {} [("SEM_X", ruleSemX)] "SEM_X" mdSemX {}
    ruleSemX rfl (by decide)

lemma findIdxFrom_spec {α : Type} (p : α → Bool) :
    ∀ (l : List α) (i r : Nat), findIdxFrom p l i = some r →
      ∃ j, ∃ h : j < l.length, r = i + j ∧ p (l.get ⟨j, h⟩) = true := by
  intro l
  induction l with
  | nil => intro i r h; cases h
  | cons x xs ih =>
    intro i r h
    unfold findIdxFrom at h
    by_cases hp : p x = true
    · rw [if_pos hp] at h
      injection h with h
      exact ⟨0, by simp, by omega, hp⟩
    · rw [if_neg hp] at h
      rcases ih (i + 1) r h with ⟨j, hj, hr, hpj⟩
      exact ⟨j + 1, by simpa using Nat.succ_lt_succ hj, by omega, hpj⟩

lemma lastIdxFrom_spec {α : Type} (p : α → Bool) :
    ∀ (l : List α) (i acc : Nat),
      lastIdxFrom p l i acc = acc ∨
      ∃ j, ∃ h : j < l.length, p (l.get ⟨j, h⟩) = true ∧ lastIdxFrom p l i acc = i + j := by
  intro l
  induction l with
  | nil => intro i acc; exact Or.inl rfl
  | cons x xs ih =>
    intro i acc
    unfold lastIdxFrom
    rcases ih (i + 1) (if p x then i else acc) with h | ⟨j, hj, hpj, heq⟩
    · rw [h]
      by_cases hp : p x = true
      · rw [if_pos hp]
        exact Or.inr ⟨0, by simp, hp, by omega⟩
      · rw [if_neg hp]
        exact Or.inl rfl
    · exact Or.inr ⟨j + 1, by simpa using Nat.succ_lt_succ hj, hpj, by omega⟩

lemma findSome?_spec {α β : Type} {f : α → Option β} :
    ∀ {l : List α} {b : β}, l.findSome? f = some b → ∃ a ∈ l, f a = some b := by
  intro l
  induction l with
  | nil => intro b h; cases h
  | cons x xs ih =>
    intro b h
    rw [List.findSome?_cons] at h
    cases hfx : f x with
    | some v =>
      rw [hfx] at h
      injection h with h
      exact ⟨x, List.mem_cons_self x xs, by rw [hfx, h]⟩
    | none =>
      rw [hfx] at h
      rcases ih h with ⟨a, ha, hfa⟩
      exact ⟨a, List.mem_cons_of_mem x ha, hfa⟩

lemma upsert_mem {α : Type} {d : List (String × α)} {k : String} {v : α} {p : String × α}
    (hp : p ∈ upsert d k v) : p ∈ d ∨ p = (k, v) := by
  unfold upsert at hp
  by_cases hany : d.any (fun q => q.1 == k) = true
  · rw [if_pos hany] at hp
    rcases List.mem_map.mp hp with ⟨q, hq, hqe⟩
    by_cases hqk : q.1 == k
    · rw [if_pos hqk] at hqe
      exact Or.inr hqe.symm
    · rw [if_neg hqk] at hqe
      exact Or.inl (hqe ▸ hq)
  · rw [if_neg hany] at hp
    rcases List.mem_append.mp hp with h | h
    · exact Or.inl h
    · simp only [List.mem_singleton] at h
      exact Or.inr h

lemma suGo_bounds (Nn : Nat) :
    ∀ (f iL iR step : Nat),
      (suGo Nn f iL iR step).1 ≤ iL ∧ iR ≤ (suGo Nn f iL iR step).2 ∧
      (suGo Nn f iL iR step).2 ≤ max iR (Nn - 1) := by
  intro f
  induction f with
  | zero => intro iL iR step; simp [suGo]
  | succ f ih =>
    intro iL iR step
    simp only [suGo]
    by_cases hg : (decide (0 < iL) || decide (iR < Nn - 1)) = true
    · rw [if_pos hg]
      by_cases hb1 : (step % 2 == 0 && decide (iR < Nn - 1)) = true
      · rw [if_pos hb1]
        have hiR : iR < Nn - 1 := by
          simp only [Bool.and_eq_true, decide_eq_true_eq] at hb1
          exact hb1.2
        have h := ih iL (iR + 1) (step + 1)
        refine ⟨h.1, by omega, ?_⟩
        have := h.2.2
        omega
      · rw [if_neg hb1]
        by_cases hb2 : 0 < iL
        · rw [if_pos hb2]
          have h := ih (iL - 1) iR (step + 1)
          exact ⟨by omega, h.2.1, h.2.2⟩
        · rw [if_neg hb2]
          exact ih iL iR (step + 1)
    · rw [if_neg hg]
      simp

lemma sbLoop_wf (t : List Char) :
    ∀ f start i acc, start ≤ i → start ≤ t.length →
      (∀ p ∈ acc, p.1 ≤ p.2 ∧ p.2 ≤ start) →
      acc.Pairwise (fun a b => a.2 ≤ b.1) →
      (∀ p ∈ sbLoop t t.length f start i acc, p.1 ≤ p.2 ∧ p.2 ≤ t.length) ∧
      (sbLoop t t.length f start i acc).Pairwise (fun a b => a.2 ≤ b.1) := by
  have hfin : ∀ start (acc : List (Nat × Nat)), start ≤ t.length →
      (∀ p ∈ acc, p.1 ≤ p.2 ∧ p.2 ≤ start) →
      acc.Pairwise (fun a b => a.2 ≤ b.1) →
      (∀ p ∈ acc ++ (if start < t.length then [(start, t.length)] else []),
         p.1 ≤ p.2 ∧ p.2 ≤ t.length) ∧
      (acc ++ (if start < t.length then [(start, t.length)] else [])).Pairwise
        (fun a b => a.2 ≤ b.1) := by
    intro start acc hsN hb hpw
    by_cases h : start < t.length
    · rw [if_pos h]
      constructor
      · intro p hp
        rcases List.mem_append.mp hp with hp | hp
        · exact ⟨(hb p hp).1, le_trans (hb p hp).2 hsN⟩
        · simp only [List.mem_singleton] at hp
          subst hp
          exact ⟨le_of_lt h, le_refl _⟩
      · rw [List.pairwise_append]
        refine ⟨hpw, List.pairwise_singleton _ _, ?_⟩
        intro a ha b hb2
        simp only [List.mem_singleton] at hb2
        subst hb2
        exact (hb a ha).2
    · rw [if_neg h]
      simp only [List.append_nil]
      exact ⟨fun p hp => ⟨(hb p hp).1, le_trans (hb p hp).2 hsN⟩, hpw⟩
  intro f
  induction f with
  | zero =>
    intro start i acc hsi hsN hb hpw
    exact hfin start acc hsN hb hpw
  | succ f ih =>
    intro start i acc hsi hsN hb hpw
    simp only [sbLoop]
    by_cases hi : i < t.length
    · simp only [if_pos hi]
      by_cases hend : isEnder (t.getD i ' ') = true
      · simp only [if_pos hend]
        set j := skipClosing t t.length (t.length + 1) (i + 1) with hj
        have hjge : i + 1 ≤ j := skipClosing_ge t t.length _ (i + 1)
        have hjle : j ≤ t.length := skipClosing_le t t.length _ (i + 1) (by omega)
        by_cases hsp : (t.length ≤ j || isSpaceP (t.getD j ' ')) = true
        · simp only [if_pos hsp]
          refine ih j j _ (le_refl j) hjle ?_ ?_
          · intro p hp
            rcases List.mem_append.mp hp with hp | hp
            · exact ⟨(hb p hp).1, by have := (hb p hp).2; omega⟩
            · simp only [List.mem_singleton] at hp
              subst hp
              exact ⟨by omega, le_refl j⟩
          · rw [List.pairwise_append]
            refine ⟨hpw, List.pairwise_singleton _ _, ?_⟩
            intro a ha b hb2
            simp only [List.mem_singleton] at hb2
            subst hb2
            have := (hb a ha).2
            omega
        · simp only [if_neg hsp]
          exact ih start (i + 1) acc (by omega) hsN hb hpw
      · simp only [if_neg hend]
        by_cases hdb : (t.getD i ' ' == '\n' && (decide (i + 1 < t.length) &&
            (t.getD (i + 1) ' ' == '\n' || t.getD (i + 1) ' ' == '\r'))) = true
        · simp only [if_pos hdb]
          refine ih (i + 1) (i + 1) _ (le_refl _) (by omega) ?_ ?_
          · intro p hp
            rcases List.mem_append.mp hp with hp | hp
            · exact ⟨(hb p hp).1, by have := (hb p hp).2; omega⟩
            · simp only [List.mem_singleton] at hp
              subst hp
              exact ⟨hsi, by omega⟩
          · rw [List.pairwise_append]
            refine ⟨hpw, List.pairwise_singleton _ _, ?_⟩
            intro a ha b hb2
            simp only [List.mem_singleton] at hb2
            subst hb2
            have := (hb a ha).2
            omega
        · simp only [if_neg hdb]
          exact ih start (i + 1) acc (by omega) hsN hb hpw
    · simp only [if_neg hi]
      exact hfin start acc hsN hb hpw

lemma sentenceBoundaries_wf (t : List Char) :
    (∀ p ∈ sentenceBoundaries t, p.1 ≤ p.2 ∧ p.2 ≤ t.length) ∧
    (sentenceBoundaries t).Pairwise (fun a b => a.2 ≤ b.1) := by
  exact sbLoop_wf t (t.length + 1) 0 0 [] (le_refl 0) (Nat.zero_le _)
    (by intro p hp; cases hp) List.Pairwise.nil

lemma foldl_keepIf_spec (g : Nat → Bool) :
    ∀ (l : List Nat) (init : Int),
      l.foldl (fun acc i => if g i then (i : Int) else acc) init = init ∨
      ∃ i ∈ l, l.foldl (fun acc i => if g i then (i : Int) else acc) init = (i : Int) := by
  intro l
  induction l with
  | nil => intro init; exact Or.inl rfl
  | cons x xs ih =>
    intro init
    simp only [List.foldl]
    rcases ih (if g x then (x : Int) else init) with h | ⟨i, hi, h⟩
    · rw [h]
      by_cases hg : g x = true
      · rw [if_pos hg]
        exact Or.inr ⟨x, List.mem_cons_self x xs, rfl⟩
      · rw [if_neg hg]
        exact Or.inl rfl
    · exact Or.inr ⟨i, List.mem_cons_of_mem x hi, h⟩

lemma rfindIn_spec (t : List Char) (c : Char) (hi : Nat) :
    rfindIn t c hi = -1 ∨ (0 ≤ rfindIn t c hi ∧ rfindIn t c hi < (hi : Int)) := by
  unfold rfindIn
  rcases foldl_keepIf_spec (fun i => t.getD i ' ' == c) (List.range (min hi t.length)) (-1)
    with h | ⟨i, hmem, h⟩
  · exact Or.inl h
  · right
    rw [h]
    have := List.mem_range.mp hmem
    constructor
    · exact Int.ofNat_nonneg i
    · exact_mod_cast lt_of_lt_of_le this (min_le_left _ _)

lemma findFrom_spec (t : List Char) (c : Char) (lo : Nat) :
    findFrom t c lo = -1 ∨ (lo : Int) ≤ findFrom t c lo := by
  unfold findFrom
  cases h : findIdxFrom (fun x => x == c) (t.drop lo) 0 with
  | none => exact Or.inl rfl
  | some j =>
    right
    show (lo : Int) ≤ ((lo + j : Nat) : Int)
    exact_mod_cast Nat.le_add_right lo j

lemma foldl_min_ge {m x : Int} : ∀ {xs : List Int}, m ≤ x → (∀ y ∈ xs, m ≤ y) →
    m ≤ xs.foldl min x := by
  intro xs
  induction xs generalizing x with
  | nil => intro hx _; exact hx
  | cons y ys ih =>
    intro hx hys
    simp only [List.foldl]
    exact ih (le_min hx (hys y (List.mem_cons_self y ys)))
      (fun z hz => hys z (List.mem_cons_of_mem y hz))

lemma pyMinList_ge (d : Nat) (l : List Int) (hl : ∀ y ∈ l, (d : Int) ≤ y) :
    d ≤ pyMinList d l := by
  cases l with
  | nil => exact le_refl d
  | cons x xs =>
    have hx : (d : Int) ≤ x := hl x (List.mem_cons_self x xs)
    have hxs : ∀ y ∈ xs, (d : Int) ≤ y := fun y hy => hl y (List.mem_cons_of_mem x hy)
    have hmin := foldl_min_ge hx hxs
    simp only [pyMinList]
    omega

lemma clauseUnion_bounds (t : List Char) (start end_ : Nat)
    (hse : start < end_) (hle : end_ ≤ t.length) :
    (clauseUnion t start end_).1 ≤ start ∧ end_ ≤ (clauseUnion t start end_).2 ∧
    (clauseUnion t start end_).2 ≤ t.length := by
  have h1 := rfindIn_spec t ',' start
  have h2 := rfindIn_spec t ';' start
  have hfc := findFrom_spec t ',' end_
  have hfs := findFrom_spec t ';' end_
  simp only [clauseUnion]
  set lb := max (rfindIn t ',' start) (rfindIn t ';' start) with hlbdef
  set rc := findFrom t ',' end_ with hrcdef
  set rs := findFrom t ';' end_ with hrsdef
  have hall : ∀ y ∈ ((if rc ≠ -1 then [rc] else []) ++ (if rs ≠ -1 then [rs] else [])),
      (end_ : Int) ≤ y := by
    intro y hy
    rcases List.mem_append.mp hy with hy | hy
    · by_cases hne : rc ≠ -1
      · rw [if_pos hne] at hy
        simp only [List.mem_singleton] at hy
        subst hy
        rcases hfc with h | h
        · exact absurd h hne
        · exact h
      · rw [if_neg hne] at hy
        cases hy
    · by_cases hne : rs ≠ -1
      · rw [if_pos hne] at hy
        simp only [List.mem_singleton] at hy
        subst hy
        rcases hfs with h | h
        · exact absurd h hne
        · exact h
      · rw [if_neg hne] at hy
        cases hy
  have hs1 : (if (0 : Int) ≤ lb then (lb + 1).toNat else start) ≤ start := by
    by_cases h0 : (0 : Int) ≤ lb
    · rw [if_pos h0]
      have hlt : lb < (start : Int) := by
        rw [hlbdef]
        rcases h1 with h1 | h1 <;> rcases h2 with h2 | h2 <;>
          simp only [max_lt_iff] <;> omega
      omega
    · rw [if_neg h0]
  have he1 := pyMinList_ge end_ _ hall
  refine ⟨by omega, by omega, by omega⟩

lemma sent_get_le {sentences : List (Nat × Nat)} {N : Nat}
    (hwf1 : ∀ p ∈ sentences, p.1 ≤ p.2 ∧ p.2 ≤ N)
    (hpw : sentences.Pairwise (fun a b => a.2 ≤ b.1)) :
    ∀ (i j : Nat) (hi : i < sentences.length) (hj : j < sentences.length), i ≤ j →
      (sentences.get ⟨i, hi⟩).1 ≤ (sentences.get ⟨j, hj⟩).1 ∧
      (sentences.get ⟨i, hi⟩).2 ≤ (sentences.get ⟨j, hj⟩).2 := by
  intro i j hi hj hij
  rcases Nat.eq_or_lt_of_le hij with he | hlt
  · subst he
    exact ⟨le_refl _, le_refl _⟩
  · have hd := List.pairwise_iff_get.mp hpw ⟨i, hi⟩ ⟨j, hj⟩ (Fin.mk_lt_mk.mpr hlt)
    have hwi := hwf1 _ (sentences.get_mem i hi)
    have hwj := hwf1 _ (sentences.get_mem j hj)
    exact ⟨by omega, by omega⟩

lemma sent_disjoint_get {sentences : List (Nat × Nat)}
    (hpw : sentences.Pairwise (fun a b => a.2 ≤ b.1))
    {i j : Nat} (hi : i < sentences.length) (hj : j < sentences.length) (hij : i < j) :
    (sentences.get ⟨i, hi⟩).2 ≤ (sentences.get ⟨j, hj⟩).1 :=
  List.pairwise_iff_get.mp hpw ⟨i, hi⟩ ⟨j, hj⟩ (Fin.mk_lt_mk.mpr hij)

lemma applySpanPolicy_bounds (pol : SpanPolicy) (t : List Char) (sentences : List (Nat × Nat))
    (start end_ : Nat)
    (hwf1 : ∀ p ∈ sentences, p.1 ≤ p.2 ∧ p.2 ≤ t.length)
    (hpw : sentences.Pairwise (fun a b => a.2 ≤ b.1))
    (hse : start < end_) (hle : end_ ≤ t.length)
    (hgood : GoodPolicy pol) :
    0 ≤ (applySpanPolicy pol t sentences start end_).1 ∧
    (applySpanPolicy pol t sentences start end_).1 <
      (applySpanPolicy pol t sentences start end_).2 ∧
    (applySpanPolicy pol t sentences start end_).2 ≤ (t.length : Int) := by
  simp only [applySpanPolicy]
  by_cases hm1 : pol.mode.getD "anchor_window" = "sentence_union"
  · rw [if_pos hm1]
    cases hf : findIdxFrom
        (fun se => decide (se.1 ≤ (start + end_) / 2) && decide ((start + end_) / 2 < se.2))
        sentences 0 with
    | none =>
      dsimp only
      refine ⟨Int.ofNat_nonneg start, ?_, ?_⟩
      · exact_mod_cast hse
      · exact_mod_cast hle
    | some si =>
      dsimp only
      rcases findIdxFrom_spec _ sentences 0 si hf with ⟨j, hj, hsij, hcond⟩
      have hsieq : si = j := by omega
      subst hsieq
      simp only [Bool.and_eq_true, decide_eq_true_eq] at hcond
      have hmid1 : start ≤ (start + end_) / 2 := by omega
      have hmid2 : (start + end_) / 2 < end_ := by omega
      have hlen : 0 < sentences.length := lt_of_le_of_lt (Nat.zero_le si) hj
      have hiL : lastIdxWith (fun se => decide (se.1 ≤ start) && decide (start < se.2))
          sentences si ≤ si ∧
          lastIdxWith (fun se => decide (se.1 ≤ start) && decide (start < se.2))
          sentences si < sentences.length := by
        unfold lastIdxWith
        rcases lastIdxFrom_spec (fun se => decide (se.1 ≤ start) && decide (start < se.2))
            sentences 0 si with h | ⟨k, hk, hpk, heq⟩
        · rw [h]
          exact ⟨le_refl si, hj⟩
        · rw [heq]
          simp only [Nat.zero_add]
          simp only [Bool.and_eq_true, decide_eq_true_eq] at hpk
          refine ⟨?_, hk⟩
          by_contra hgt
          push_neg at hgt
          have hd := sent_disjoint_get hpw hj hk hgt
          omega
      have hiR : si ≤ lastIdxWith (fun se => decide (se.1 < end_) && decide (end_ ≤ se.2))
          sentences si ∧
          lastIdxWith (fun se => decide (se.1 < end_) && decide (end_ ≤ se.2))
          sentences si < sentences.length := by
        unfold lastIdxWith
        rcases lastIdxFrom_spec (fun se => decide (se.1 < end_) && decide (end_ ≤ se.2))
            sentences 0 si with h | ⟨k, hk, hpk, heq⟩
        · rw [h]
          exact ⟨le_refl si, hj⟩
        · rw [heq]
          simp only [Nat.zero_add]
          simp only [Bool.and_eq_true, decide_eq_true_eq] at hpk
          refine ⟨?_, hk⟩
          by_contra hgt
          push_neg at hgt
          have hd := sent_disjoint_get hpw hk hj hgt
          omega
      set iL := lastIdxWith (fun se => decide (se.1 ≤ start) && decide (start < se.2))
        sentences si with hiLdef
      set iR := lastIdxWith (fun se => decide (se.1 < end_) && decide (end_ ≤ se.2))
        sentences si with hiRdef
      simp only [sentenceUnion]
      have hsu := suGo_bounds sentences.length
        (Int.toNat (max 1 (pol.maxSentenceSpan.getD 1) - ((iR : Int) - (iL : Int) + 1)))
        iL iR 0
      set r := suGo sentences.length
        (Int.toNat (max 1 (pol.maxSentenceSpan.getD 1) - ((iR : Int) - (iL : Int) + 1)))
        iL iR 0 with hrdef
      have hr1 : r.1 < sentences.length := lt_of_le_of_lt (le_trans hsu.1 hiL.1) hj
      have hr2 : r.2 < sentences.length := by
        have := hsu.2.2
        have := hiR.2
        omega
      rw [List.getD_eq_get sentences (0, 0) hr1, List.getD_eq_get sentences (0, 0) hr2]
      have hmono1 := sent_get_le hwf1 hpw r.1 si hr1 hj (le_trans hsu.1 hiL.1)
      have hmono2 := sent_get_le hwf1 hpw si r.2 hj hr2 (le_trans hiR.1 hsu.2.1)
      have hwr2 := hwf1 _ (sentences.get_mem r.2 hr2)
      refine ⟨Int.ofNat_nonneg _, ?_, ?_⟩
      · exact_mod_cast by omega
      · exact_mod_cast hwr2.2
  · rw [if_neg hm1]
    by_cases hm2 : pol.mode.getD "anchor_window" = "clause_union"
    · rw [if_pos hm2]
      dsimp only
      have hc := clauseUnion_bounds t start end_ hse hle
      refine ⟨Int.ofNat_nonneg _, ?_, ?_⟩
      · exact_mod_cast by omega
      · exact_mod_cast hc.2.2
    · rw [if_neg hm2]
      dsimp only
      have hwt : (pol.windowTokens.getD (-8, 8)).1 ≤ 0 ∧ 0 ≤ (pol.windowTokens.getD (-8, 8)).2 := by
        unfold GoodPolicy at hgood
        rcases hgood with h | h | h
        · exact absurd h hm1
        · exact absurd h hm2
        · exact h
      have h1 : (pol.windowTokens.getD (-8, 8)).1 * 4 ≤ 0 := by
        have := hwt.1
        omega
      have h2 : 0 ≤ (pol.windowTokens.getD (-8, 8)).2 * 4 := by
        have := hwt.2
        omega
      refine ⟨le_max_left 0 _, ?_, ?_⟩
      · have hc1 : max 0 ((start : Int) + (pol.windowTokens.getD (-8, 8)).1 * 4) ≤ (start : Int) := by
          have : (0 : Int) ≤ (start : Int) := Int.ofNat_nonneg start
          omega
        have hc2 : (end_ : Int) ≤ min ((t.length : Int)) ((end_ : Int) + (pol.windowTokens.getD (-8, 8)).2 * 4) := by
          have h3 : (end_ : Int) ≤ (t.length : Int) := by exact_mod_cast hle
          omega
        have h4 : (start : Int) < (end_ : Int) := by exact_mod_cast hse
        omega
      · exact min_le_left _ _

lemma counts0_zero (needed : List String) :
    ∀ d, (∀ p ∈ d, p.2 = 0) →
      ∀ p ∈ needed.foldl (fun d id => upsert d id (0 : Nat)) d, p.2 = 0 := by
  induction needed with
  | nil => intro d hd p hp; exact hd p hp
  | cons x xs ih =>
    intro d hd p hp
    simp only [List.foldl] at hp
    refine ih (upsert d x 0) ?_ p hp
    intro q hq
    rcases upsert_mem hq with h | h
    · exact hd q h
    · rw [h]

lemma semCounts_nil_zero (needed : List String) :
    ∀ p ∈ semCounts needed [], p.2 = 0 := by
  unfold semCounts
  simp only [List.foldl]
  exact counts0_zero needed [] (by intro p hp; cases hp)

lemma total_ne_zero_imp {needed : List String} {wa : List Ann}
    (h : ((semCounts needed wa).map Prod.snd).sum ≠ 0) : wa ≠ [] := by
  intro hwa
  subst hwa
  apply h
  apply List.sum_eq_zero
  intro x hx
  rcases List.mem_map.mp hx with ⟨p, hp, he⟩
  rw [← he]
  exact semCounts_nil_zero needed p hp

lemma windowAtomics_mem {sentences : List (Nat × Nat)} {atomics : List Ann}
    {i0 iR : Nat} {a : Ann} (ha : a ∈ windowAtomics sentences atomics i0 iR) :
    ∃ k, i0 ≤ k ∧ k ≤ iR ∧ ∃ hk : k < sentences.length,
      ((sentences.get ⟨k, hk⟩).1 : Int) ≤ midOf a ∧
      midOf a < ((sentences.get ⟨k, hk⟩).2 : Int) := by
  unfold windowAtomics at ha
  rcases List.mem_flatMap.mp ha with ⟨k, hk, hab⟩
  have hkr := List.mem_range'_1.mp hk
  unfold sentBucket at hab
  have hfil := List.mem_filter.mp hab
  have hgs : getSentenceIdx sentences (midOf a) = some k := by
    have := hfil.2
    simpa using this
  unfold getSentenceIdx at hgs
  rcases findIdxFrom_spec _ sentences 0 k hgs with ⟨j, hj, hkj, hcond⟩
  have hkeq : k = j := by omega
  subst hkeq
  simp only [Bool.and_eq_true, decide_eq_true_eq] at hcond
  exact ⟨k, by omega, by omega, hj, hcond.1, hcond.2⟩

lemma detectAtomics_bounds (t : List Char) (rx : List (String × List Pattern × List Pattern)) :
    ∀ a ∈ detectAtomics t rx, 0 ≤ a.start ∧ a.start < a.end_ ∧ a.end_ ≤ (t.length : Int) := by
  intro a ha
  rcases mem_detectAtomics.mp ha with ⟨entry, _, p, _, m, hmem, hlt, _, heq⟩
  have hb := p.finditer_le t m hmem
  subst heq
  unfold mkAtomic
  dsimp only
  refine ⟨Int.ofNat_nonneg _, ?_, ?_⟩
  · exact_mod_cast hlt
  · exact_mod_cast hb

lemma compose_bounds (text : List Char) (composeds : List SemMarker) (atomics : List Ann)
    (promotion : List (String × PromoRule)) (weights : Weights)
    (hgood : ∀ m ∈ composeds, GoodMarker m) :
    ∀ a ∈ compose text composeds atomics promotion weights,
      0 ≤ a.start ∧ a.start < a.end_ ∧ a.end_ ≤ (text.length : Int) := by
  intro a ha
  simp only [compose] at ha
  rcases List.mem_flatMap.mp ha with ⟨m, hm, ham⟩
  split at ham
  · cases ham
  · rcases List.mem_filterMap.mp ham with ⟨i0, hi0, hsome⟩
    rcases findSome?_spec hsome with ⟨ws, hws, hfws⟩
    have hi0len := List.mem_range.mp hi0
    have hws1 : 1 ≤ ws := by
      rcases List.mem_map.mp hws with ⟨k, _, hke⟩
      omega
    split at hfws
    · cases hfws
    · next htot =>
      split at hfws
      · next hact =>
        injection hfws with hfws
        subst hfws
        have hwf := sentenceBoundaries_wf text
        set sents := sentenceBoundaries text with hsents
        set iR := min (sents.length - 1) (i0 + ws - 1) with hiR
        have hiRlen : iR < sents.length := by omega
        have hi0iR : i0 ≤ iR := by omega
        have hwa := total_ne_zero_imp htot
        rcases List.exists_mem_of_ne_nil _ hwa with ⟨a2, ha2⟩
        rcases windowAtomics_mem ha2 with ⟨k, hk1, hk2, hklen, hc1, hc2⟩
        have hknd : (sents.get ⟨k, hklen⟩).1 < (sents.get ⟨k, hklen⟩).2 := by omega
        have hm1 := sent_get_le hwf.1 hwf.2 i0 k hi0len hklen hk1
        have hm2 := sent_get_le hwf.1 hwf.2 k iR hklen hiRlen hk2
        rw [List.getD_eq_get sents (0, 0) hi0len, List.getD_eq_get sents (0, 0) hiRlen]
        have hends := hwf.1 _ (sents.get_mem iR hiRlen)
        exact applySpanPolicy_bounds (m.span_policy.getD defaultSemPolicy) text sents
          (sents.get ⟨i0, hi0len⟩).1 (sents.get ⟨iR, hiRlen⟩).2 hwf.1 hwf.2
          (by omega) hends.2 (hgood m hm)
      · cases hfws

/-- Claim C2 (amended): in the analysis output every atomic hit
satisfies 0 le start lt end le len(text), and composed hits satisfy
the same bounds provided every composed marker's resolved span policy
is sentence_union or clause_union, or an anchor window with
nonpositive left and nonnegative right token offsets (as the default
window -8,+8). -/
theorem analyze_bounds_good_policies (text : List Char)
    (rx : List (String × List Pattern × List Pattern)) (composeds : List SemMarker)
    (promotion : List (String × PromoRule)) (w : Weights)
    (hgood : ∀ m ∈ composeds, GoodMarker m) :
    ∀ a ∈ (analyzeText text rx composeds promotion w).annotations,
      0 ≤ a.start ∧ a.start < a.end_ ∧ a.end_ ≤ (text.length : Int) := by
  intro a ha
  have hmem : a ∈ detectAtomics text rx ++
      compose text composeds (detectAtomics text rx) promotion w :=
    resolveOverlaps_subset _ w a ha
  rcases List.mem_append.mp hmem with h | h
  · exact detectAtomics_bounds text rx a h
  · exact compose_bounds text composeds (detectAtomics text rx) promotion w hgood a h

/-- Witness for analyze_bounds_good_policies on a concrete one-marker
bundle whose composed marker keeps the default sentence_union policy. -/
theorem analyze_bounds_witness :
    (∀ m ∈ [semGood], GoodMarker m) ∧
    (∀ a ∈ (analyzeText ['a', 'b', 'c'] rxC2 [semGood] [] {}).annotations,
      0 ≤ a.start ∧ a.start < a.end_ ∧ a.end_ ≤ ((['a', 'b', 'c'] : List Char).length : Int)) :=
  ⟨by decide, analyze_bounds_good_policies ['a', 'b', 'c'] rxC2 [semGood] [] {} (by decide)⟩
